import Mathlib

/-!
# Verification of panphylo's core data model and text handling

Shallow embedding of the panphylo repository (tresoldi/panphylo):
`src/panphylo/common.py` (slugging), `src/panphylo/phylodata.py`
(`Character`, `PhyloData`, `OldPhyloData`, `binarize`),
`src/panphylo/tabular.py` (`read_data_tabular`) and
`src/panphylo/nexus.py` (`parse_nexus`, `read_data_nexus`).

Python sets of strings are modelled as insertion-ordered duplicate-free
lists (one admissible iteration order of a Python `set`); Python dicts as
insertion-ordered association lists (Python 3.7+ dicts preserve insertion
order); fallible Python code (exceptions) as `Except String`.
-/

namespace Panphylo

/-! ## Python string primitives -/

/-- Whitespace characters recognised by Python's `str.strip`, `str.split()`
and the regex class `\s` (restricted to the ASCII range, which is all the
sources use). -/
def pyIsSpace (c : Char) : Bool :=
  c = ' ' ∨ c = '\t' ∨ c = '\n' ∨ c = '\r' ∨ c = '\x0b' ∨ c = '\x0c'

/-- Python `str.strip()` on a list of characters. -/
def pyStripL (l : List Char) : List Char :=
  (l.dropWhile pyIsSpace).reverse.dropWhile pyIsSpace |>.reverse

/-- Python `str.strip()`. -/
def pyStrip (s : String) : String :=
  ⟨pyStripL s.data⟩

/-- `re.sub(r"\s", "", s)`: remove every whitespace character. -/
def removeWS (s : String) : String :=
  ⟨s.data.filter (fun c => !pyIsSpace c)⟩

/-- Helper of `collapseWSL`: `inRun` records whether the previous
character was whitespace (whose run has already emitted its
replacement). -/
def collapseWSAux (sep : Char) : List Char → Bool → List Char
  | [], _ => []
  | c :: rest, inRun =>
      if pyIsSpace c then
        if inRun then collapseWSAux sep rest true
        else sep :: collapseWSAux sep rest true
      else
        c :: collapseWSAux sep rest false

/-- Replace every maximal run of whitespace in `l` by the single character
`sep` (the list-level core of `re.sub(r"\s+", sep, s)`). -/
def collapseWSL (sep : Char) (l : List Char) : List Char :=
  collapseWSAux sep l false

/-- `re.sub(r"\s+", sep, s)` for a one-character replacement `sep`. -/
def collapseWS (sep : Char) (s : String) : String :=
  ⟨collapseWSL sep s.data⟩

/-- Python `str.upper()` (ASCII case mapping, which covers the repository's
usage). -/
def pyUpper (s : String) : String :=
  ⟨s.data.map Char.toUpper⟩

/-- Python `str.lower()` (ASCII case mapping). -/
def pyLower (s : String) : String :=
  ⟨s.data.map Char.toLower⟩

/-- Python truthiness of an `Optional[str]`: `None` and `""` are falsy. -/
def pyTruthyStrOpt : Option String → Bool
  | none => false
  | some s => !s.isEmpty

/-- Split `l` at every occurrence of the separator `sep`, keeping empty
fields: Python `str.split(sep)` with an explicit separator. -/
def pySplitSepL (sep : Char) (l : List Char) : List (List Char) :=
  l.foldr
    (fun c acc =>
      match acc with
      | [] => [[c]]
      | field :: rest => if c = sep then [] :: field :: rest else (c :: field) :: rest)
    [[]]

/-- Python `str.split(sep)` with an explicit one-character separator. -/
def pySplitSep (sep : Char) (s : String) : List String :=
  (pySplitSepL sep s.data).map (fun cs => ⟨cs⟩)

/-- Python `str.split()` without arguments: split on whitespace runs and
drop empty fields. -/
def pySplitWS (s : String) : List String :=
  ((pySplitSep ' ' (collapseWS ' ' (pyStrip s))).filter (fun f => !f.isEmpty))

/-- Python `sub in s`: substring containment on character lists. -/
def isSubstrL (needle : List Char) : List Char → Bool
  | [] => needle.isEmpty
  | c :: rest => needle.isPrefixOf (c :: rest) || isSubstrL needle rest

/-- Python `sub in s`: substring containment. -/
def pyContains (hay needle : String) : Bool :=
  isSubstrL needle.data hay.data

/-- Python `max` over a list of naturals; raises `ValueError` on an empty
list. -/
def pyMaxNat : List Nat → Except String Nat
  | [] => .error "ValueError: max() arg is an empty sequence"
  | x :: xs => .ok (xs.foldl Nat.max x)

/-- Stable insertion used by `pySorted`: place `x` before the first
element `y` with `x ≤ y`. -/
def insertLe (le : α → α → Bool) (x : α) : List α → List α
  | [] => [x]
  | y :: rest => if le x y then x :: y :: rest else y :: insertLe le x rest

/-- Python `sorted`: a stable sort (insertion sort here, written so that
the kernel can evaluate it). -/
def pySorted (le : α → α → Bool) (l : List α) : List α :=
  l.foldr (insertLe le) []

/-- Lexicographic comparison of character lists by code point (Python's
string comparison). -/
def lexLe : List Char → List Char → Bool
  | [], _ => true
  | _ :: _, [] => false
  | x :: xs, y :: ys => if x < y then true else if x = y then lexLe xs ys else false

/-- Python's `<=` on strings: lexicographic by code point. -/
def strLe (a b : String) : Bool :=
  lexLe a.data b.data

/-- `sorted` on strings. -/
def pySortedStr (l : List String) : List String :=
  pySorted strLe l

/-! ## Python sets and dicts as insertion-ordered lists -/

/-- Python `set.add`: append the element unless already present.  The list
order models one admissible iteration order of a Python `set`. -/
def pyInsert (l : List String) (x : String) : List String :=
  if x ∈ l then l else l ++ [x]

/-- Fold `pyInsert` over a list of additions (repeated `set.add`). -/
def pyInsertAll (l : List String) (xs : List String) : List String :=
  xs.foldl pyInsert l

/-- Lookup in an insertion-ordered association list (Python `dict.get`). -/
def alistFind (k : α) [DecidableEq α] (l : List (α × β)) : Option β :=
  match l.find? (fun p => p.1 = k) with
  | some p => some p.2
  | none => none

/-- Update-or-append for an insertion-ordered association list: Python
`d[k] = f (d.get(k, d0))` where an absent key is appended at the end
(insertion order preserved for existing keys). -/
def alistUpsert (k : α) [DecidableEq α] (d0 : β) (f : β → β) : List (α × β) → List (α × β)
  | [] => [(k, f d0)]
  | (k', v) :: rest =>
      if k' = k then (k', f v) :: rest else (k', v) :: alistUpsert k d0 f rest

/-! ## `common.py`: slugging -/

/-- Model of the external `unidecode.unidecode` transliteration library
(an external collaborator, not repository code): ASCII code points are kept
unchanged, and the non-ASCII code points actually exercised by the
repository's data and tests are mapped per the library's documented tables;
remaining unmapped code points transliterate to the empty string, as
`unidecode` does for unknown characters. -/
def pyUnidecodeChar (c : Char) : List Char :=
  if c.toNat < 128 then [c]
  else if c = 'Å' then ['A']
  else if c = 'å' then ['a']
  else if c = 'é' then ['e']
  else if c = 'è' then ['e']
  else []

/-- `unidecode.unidecode` on a string (see `pyUnidecodeChar`). -/
def pyUnidecode (s : String) : String :=
  ⟨s.data.flatMap pyUnidecodeChar⟩

/-- Characters kept by the `"simple"` slug level:
`string.ascii_letters + string.digits + "-_"`. -/
def simpleKeep (c : Char) : Bool :=
  (('a' ≤ c ∧ c ≤ 'z') ∨ ('A' ≤ c ∧ c ≤ 'Z') ∨ ('0' ≤ c ∧ c ≤ '9') ∨ c = '-' ∨ c = '_')

/-- Characters kept by the `"full"` slug level: `string.ascii_letters`. -/
def letterKeep (c : Char) : Bool :=
  (('a' ≤ c ∧ c ≤ 'z') ∨ ('A' ≤ c ∧ c ≤ 'Z'))

/-- `common.slug(label, level)`.  Note that the source's `if/elif` chain has
no `else` branch: an unrecognised `level` falls through and the label is
returned unchanged (no error is raised). -/
def slug (label : String) (level : String) : String :=
  if level = "none" then
    label
  else if level = "simple" then
    let l1 := pyUnidecode label
    let l2 := collapseWS '_' (pyStrip l1)
    ⟨l2.data.filter simpleKeep⟩
  else if level = "full" then
    let l1 := pyUnidecode label
    let l2 := collapseWS ' ' (pyStrip l1)
    let l3 := pyLower l2
    ⟨l3.data.filter letterKeep⟩
  else
    label

/-- Successor of a lowercase base-26 "odometer" numeral stored in
reversed (least-significant-first) digit order: `a → b`, ..., a trailing
`z` wraps to `a` with a carry, and an all-`z` numeral grows one digit. -/
def succRev : List Char → List Char
  | [] => ['a']
  | c :: rest =>
      if c = 'z' then 'a' :: succRev rest
      else Char.ofNat (c.toNat + 1) :: rest

/-- The reversed digits of the `n`-th (0-based) yield of
`common.unique_ids`'s `_label_iter` without the leading `"-"`: the
iterator enumerates every nonempty lowercase string ordered by length and
then lexicographically (`itertools.product` per length), which is exactly
the base-26 odometer sequence `a, b, ..., z, aa, ab, ...`. -/
def base26Rev : Nat → List Char
  | 0 => ['a']
  | n + 1 => succRev (base26Rev n)

/-- `common.unique_ids`'s `_label_iter`, as a function from the 0-based
position in the stream to the yielded label (`"-a", "-b", ..., "-z",
"-aa", ...`). -/
def labelIter (n : Nat) : String :=
  ⟨'-' :: (base26Rev n).reverse⟩

/-- `unique_ids`'s `slugged` list: every label slugged. -/
def sluggedOf (labels : List String) (level : String) : List String :=
  labels.map (fun l => slug l level)

/-- `unique_ids`'s `loc_counts`: for each position, the number of previous
occurrences of the same slugged value. -/
def locCountsOf (labels : List String) (level : String) : List Nat :=
  (sluggedOf labels level).enum.map
    (fun p => ((sluggedOf labels level).take p.1).count p.2)

/-- `unique_ids`'s `suffix` dict:
`{count: next(label_iter) for count in range(max(loc_counts) + 1)}`. -/
def suffixMapOf (maxLC : Nat) : List (Nat × String) :=
  (List.range (maxLC + 1)).map (fun count => (count, labelIter count))

/-- `unique_ids`'s result list: every label whose slugged form occurs more
than once overall gets the suffix for its previous-occurrence count. -/
def uniqueIdsResult (labels : List String) (level : String) (maxLC : Nat) : List String :=
  ((sluggedOf labels level).zip (locCountsOf labels level)).map
    (fun p =>
      if (sluggedOf labels level).count p.1 > 1 then
        p.1 ++ (alistFind p.2 (suffixMapOf maxLC)).getD ""
      else p.1)

/-- `common.unique_ids(labels, level)`.  `max(loc_counts)` raises
`ValueError` when `labels` is empty, hence the `Except`. -/
def uniqueIds (labels : List String) (level : String) : Except String (List String) := do
  let maxLC ← pyMaxNat (locCountsOf labels level)
  return uniqueIdsResult labels level maxLC

/-! ## `phylodata.py`: `OldPhyloData`, `charstates`, `binarize`, `slug_taxa`

`phylodata.py` holds two snapshots of the model: the new `PhyloData`
(charset-keyed, `extend`-based) and `OldPhyloData` (the same class that
`internal.py` calls `PhyloData`).  The module-level `binarize` works on the
`OldPhyloData` shape (`charstates`, `states`, `add_state`), which is what
its body accesses despite its annotation. -/

/-- A `collections.Counter` over strings: insertion-ordered counts. -/
def counterAdd (c : List (String × Nat)) (x : String) : List (String × Nat) :=
  alistUpsert x 0 (fun n => n + 1) c

/-- Counter.update with an iterable: add each element once, in order. -/
def counterUpdate (c : List (String × Nat)) (xs : List String) : List (String × Nat) :=
  xs.foldl counterAdd c

/-- Stable insertion into a count-descending list: after every strictly
greater count, before equal ones that were inserted later.  Processing the
original list with `List.foldr insertCountDesc []` reproduces the stable
descending sort of `Counter.most_common`. -/
def insertCountDesc (x : String × Nat) : List (String × Nat) → List (String × Nat)
  | [] => [x]
  | y :: rest => if y.2 > x.2 then y :: insertCountDesc x rest else x :: y :: rest

/-- `Counter.most_common()`: entries sorted by count descending, ties in
insertion order (Python's sort is stable and `reverse=True` keeps ties in
original order). -/
def mostCommon (c : List (String × Nat)) : List (String × Nat) :=
  c.foldr insertCountDesc []

/-- `OldPhyloData` (`phylodata.py`; the identical class is `PhyloData` in
`internal.py`): taxa and characters are Python sets, `charset` maps a
charset name to a set of characters, `states` maps `(taxon, character)` to
the set of observed state tokens. -/
structure OldPhyloData where
  taxa : List String
  characters : List String
  charset : List (String × List String)
  states : List ((String × String) × List String)
  deriving Repr, DecidableEq

/-- The empty `OldPhyloData` (its `__init__`). -/
def OldPhyloData.empty : OldPhyloData := ⟨[], [], [], []⟩

/-- `OldPhyloData.add_state(taxon, character, state, charset=None)`. -/
def OldPhyloData.addState (d : OldPhyloData) (taxon character state : String)
    (cs : Option String) : OldPhyloData :=
  { d with
    states := alistUpsert (taxon, character) [] (fun vs => pyInsert vs state) d.states
    taxa := pyInsert d.taxa taxon
    characters := pyInsert d.characters character
    charset :=
      if pyTruthyStrOpt cs then
        alistUpsert (cs.getD "") [] (fun chars => pyInsert chars character) d.charset
      else d.charset }

/-- `OldPhyloData.charstates`: per character, the non-missing observed
states listed in `Counter.most_common()` order (count descending, ties in
first-occurrence order).  Each `(taxon, character)` observation set
contributes each of its non-`"?"` states once. -/
def OldPhyloData.charstates (d : OldPhyloData) : List (String × List String) :=
  let charCounter := d.states.foldl
    (fun acc p =>
      alistUpsert p.1.2 [] (fun cnt => counterUpdate cnt (p.2.filter (fun s => s ≠ "?"))) acc)
    []
  charCounter.map (fun p => (p.1, (mostCommon p.2).map Prod.fst))

/-- `BinaryObs` (`phylodata.py`). -/
inductive BinaryObs where
  | FALSE
  | TRUE
  | MISSING
  | GAP
  deriving Repr, DecidableEq

/-- `BINARY_OPS_MAP` (`internal.py` and `phylodata.py`, identical). -/
def binaryOpsMap : BinaryObs → String
  | .FALSE => "0"
  | .TRUE => "1"
  | .MISSING => "?"
  | .GAP => "-"

/-- Python's `tuple(obs) == "?"` (`internal.py`, `PhyloData.binarize`,
line 209): a tuple compared to a string is never equal in Python, so this
test is always `False` and the `MISSING` branch guarded by it is dead. -/
def pyTupleEqStr (_ : List String) (_ : String) : Bool := false

/-- The per-character row of `internal.py` `PhyloData.binarize`'s
`binary_states`: `GAP` for every state when the taxon has no (or an
empty) observation set; the `MISSING` branch is guarded by the dead
`tuple(obs) == "?"` comparison and never taken (a missing-only
observation set falls through to the `TRUE`/`FALSE` branch); else
`TRUE`/`FALSE` per state membership. -/
def binRow (obs : Option (List String)) (states : List String) : List BinaryObs :=
  match obs with
  | none => states.map (fun _ => BinaryObs.GAP)
  | some o =>
      if o = [] then states.map (fun _ => BinaryObs.GAP)
      else if pyTupleEqStr o "?" then states.map (fun _ => BinaryObs.MISSING)
      else states.map (fun s => if s ∈ o then BinaryObs.TRUE else BinaryObs.FALSE)

/-- `binarize`'s `binary_states` dict: for each taxon (set order) and each
`charstates` entry, the `binRow` of the taxon's observation set. -/
def binaryStates (d : OldPhyloData) : List ((String × String) × List BinaryObs) :=
  let charstates := d.charstates
  (d.taxa.flatMap (fun taxon => charstates.map (fun p => (taxon, p)))).foldl
    (fun acc q =>
      alistUpsert (q.1, q.2.1) []
        (fun _ => binRow (alistFind (q.1, q.2.1) d.states) q.2.2) acc)
    []

/-- One `add_state` call of `binarize`'s output loop:
`(taxon, character, state, charset)`. -/
def BinOp := String × String × String × Option String

/-- The sequence of `add_state` calls performed by `binarize`'s output
loop, in order: for each `binary_states` entry and each
`zip(states, charstates[character])` pair, one ascertainment call and, when
the observation is not a gap, one per-state call. -/
def binarizedOps (d : OldPhyloData) : List BinOp :=
  let charstates := d.charstates
  (binaryStates d).flatMap (fun p =>
    let taxon := p.1.1
    let character := p.1.2
    (p.2.zip ((alistFind character charstates).getD [])).flatMap (fun q =>
      (taxon, character ++ "_ASCERTAINMENT", "0", some character) ::
        if q.1 ≠ BinaryObs.GAP then
          [(taxon, character ++ "_" ++ q.2, binaryOpsMap q.1, some character)]
        else []))

/-- `internal.py` `PhyloData.binarize` (the binarize the converter invokes
via `phyd.binarize()`): build a fresh phylogenetic data object of the same
class by replaying the `add_state` calls of the output loop. -/
def binarize (d : OldPhyloData) : OldPhyloData :=
  (binarizedOps d).foldl
    (fun bp op => bp.addState op.1 op.2.1 op.2.2.1 op.2.2.2) OldPhyloData.empty

/-- The iterations of `phylodata.py` module-level `binarize`'s output
loop, one per `(taxon, character, state)` slot: `binary_states` holds one
row per taxon and `charstates` entry, each row as long as the character's
state list, and `zip(states, charstates[character])` pairs them off
one-to-one. -/
def moduleBinSlots (d : OldPhyloData) : List (String × String × String) :=
  d.taxa.flatMap (fun t =>
    d.charstates.flatMap (fun p => p.2.map (fun s => (t, p.1, s))))

/-- `OldPhyloData.slug_taxa(level)`: computes the slug map, replaces the
taxa set by the slugged labels, and rebuilds `self.states` — note the
rebuild loop copies every `(taxon, character)` key verbatim without
applying the slug map. -/
def OldPhyloData.slugTaxa (d : OldPhyloData) (level : String) :
    Except String OldPhyloData := do
  let uids ← uniqueIds d.taxa level
  let slugMap := (d.taxa.zip uids).foldl
    (fun acc p => alistUpsert p.1 "" (fun _ => p.2) acc) []
  let newTaxa := (slugMap.map Prod.snd).foldl pyInsert []
  let newStates := d.states.foldl
    (fun acc p => alistUpsert p.1 [] (fun old => p.2.foldl pyInsert old) acc) []
  return { d with taxa := newTaxa, states := newStates }

/-! ## `phylodata.py`: the new `PhyloData` (`Character`, `extend`, `matrix`) -/

/-- `Character` (`phylodata.py`): an insertion-ordered model of its
internal states set. -/
structure NCharacter where
  statesSet : List String
  deriving Repr, DecidableEq

/-- `Character.states`: the sorted tuple of the states set. -/
def NCharacter.states (c : NCharacter) : List String :=
  pySortedStr c.statesSet

/-- `Character.add_state`. -/
def NCharacter.addState (c : NCharacter) (s : String) : NCharacter :=
  ⟨pyInsert c.statesSet s⟩

/-- The new `PhyloData` (`phylodata.py`): a taxa set, a dict from charset
id to a dict from character id to `Character`, and an observation dict
keyed by `(taxon, charset, character)`. -/
structure NPhyloData where
  taxa : List String
  charset : List (String × List (String × NCharacter))
  obs : List ((String × String × String) × List String)
  deriving Repr, DecidableEq

/-- `PhyloData.__init__`. -/
def NPhyloData.empty : NPhyloData := ⟨[], [], []⟩

/-- `phylodata.py`'s module-level `binarize(phyd)`: after computing
`binary_states` it runs `bin_phyd = PhyloData()` — the NEW `PhyloData`
class of the same module, which has no `add_state` method — and its first
output-loop iteration calls `bin_phyd.add_state(...)` (the ascertainment
call), raising `AttributeError`; with no iterations the untouched empty
object is returned. -/
def binarizeModule (d : OldPhyloData) : Except String NPhyloData :=
  match moduleBinSlots d with
  | [] => .ok NPhyloData.empty
  | _ :: _ => .error "AttributeError: 'PhyloData' object has no attribute 'add_state'"

/-- A Python tuple passed as the `key` of `PhyloData.extend`: the readers
in `tabular.py` and `nexus.py` build two-element tuples, the signature
documents three-element ones. -/
inductive PyKey where
  | pair (taxon character : String)
  | triple (taxon : String) (charset : Option String) (character : String)
  deriving Repr, DecidableEq

/-- `PhyloData.extend(key, value)`: the body starts with
`taxon, charset, character = key`, so a two-element key raises
`ValueError` before anything is stored. -/
def NPhyloData.extend (d : NPhyloData) (key : PyKey) (value : String) :
    Except String NPhyloData :=
  match key with
  | .pair _ _ =>
      .error "ValueError: not enough values to unpack (expected 3, got 2)"
  | .triple taxon cs character =>
      -- if not charset: charset = character
      let charset := if pyTruthyStrOpt cs then cs.getD "" else character
      let newCharset :=
        match alistFind charset d.charset with
        | some inner =>
            match alistFind character inner with
            | some _ =>
                alistUpsert charset []
                  (fun inner => alistUpsert character ⟨[]⟩ (fun c => c.addState value) inner)
                  d.charset
            | none =>
                alistUpsert charset [] (fun inner => inner ++ [(character, ⟨[value]⟩)])
                  d.charset
        | none => d.charset ++ [(charset, [(character, ⟨[value]⟩)])]
      .ok { taxa := pyInsert d.taxa taxon
            charset := newCharset
            obs := alistUpsert (taxon, charset, character) []
              (fun vs => pyInsert vs value) d.obs }

/-- `PhyloData.taxa` (the property): the sorted tuple of the taxa set. -/
def NPhyloData.sortedTaxa (d : NPhyloData) : List String :=
  pySortedStr d.taxa

/-- `PhyloData.characters`: `(charset_id, char_id)` pairs, charsets in
sorted order and characters sorted within each charset. -/
def NPhyloData.characters (d : NPhyloData) : List (String × String) :=
  (pySortedStr (d.charset.map Prod.fst)).flatMap
    (fun csId =>
      (pySortedStr (((alistFind csId d.charset).getD []).map Prod.fst))
        |>.map (fun cId => (csId, cId)))

/-- `PhyloData.cardinality`: `max` over charsets of `max` over characters
of the state-set size; `max` of an empty sequence raises `ValueError`. -/
def NPhyloData.cardinality (d : NPhyloData) : Except String Nat := do
  let inner ← d.charset.mapM (fun p => pyMaxNat (p.2.map (fun q => q.2.statesSet.length)))
  pyMaxNat inner

/-- `string.digits + string.ascii_uppercase` as one-character strings. -/
def digitsUpper : List String :=
  ("0123456789ABCDEFGHIJKLMNOPQRSTUVWXYZ".data).map (fun c => ⟨[c]⟩)

/-- `PhyloData.symbols`: the first `cardinality` symbols. -/
def NPhyloData.symbols (d : NPhyloData) : Except String (List String) := do
  let card ← d.cardinality
  return digitsUpper.take card

/-- `PhyloData.__getitem__`: `self._obs.get(item, set())`. -/
def NPhyloData.getObs (d : NPhyloData) (k : String × String × String) : List String :=
  (alistFind k d.obs).getD []

/-- Python `list.index` as an option: the index of the first occurrence. -/
def idxOf? (v : String) : List String → Option Nat
  | [] => none
  | x :: rest => if x = v then some 0 else (idxOf? v rest).map (· + 1)

/-- The sorted state tuple `self._charset[charset_id][char_id].states`
consulted by `PhyloData.matrix` for one `(charset, character)` column. -/
def statesOf (d : NPhyloData) (pc : String × String) : List String :=
  (((alistFind pc.1 d.charset).bind (alistFind pc.2)).getD ⟨[]⟩).states

/-- The symbol emitted by `PhyloData.matrix` for one nonempty observation
set: `symbols[states.index(o)]` per observation, a bare symbol when the
set is a singleton and a parenthesized comma-joined list otherwise.
`list.index` raises `ValueError` and indexing raises `IndexError` when out
of range, hence the `Except`. -/
def matrixCell (symbols states o : List String) : Except String String := do
  let reprs ← o.mapM (fun v =>
    match idxOf? v states with
    | none => .error "ValueError: state not in states tuple"
    | some i =>
        match symbols.get? i with
        | none => .error "IndexError: symbols index out of range"
        | some s => .ok s)
  match reprs with
  | [r] => return r
  | rs => return "(" ++ String.intercalate "," rs ++ ")"

/-- The body of `PhyloData.matrix`'s inner loop over taxa: when the
observation set is nonempty, append the cell symbol to the taxon's row
(a `defaultdict(str)` entry). -/
def matrixInnerBody (d : NPhyloData) (symbols : List String) (pc : String × String)
    (rows : List (String × String)) (taxon : String) :
    Except String (List (String × String)) :=
  if d.getObs (taxon, pc.1, pc.2) ≠ [] then
    (matrixCell symbols (statesOf d pc) (d.getObs (taxon, pc.1, pc.2))).bind
      (fun cell => .ok (alistUpsert taxon "" (fun row => row ++ cell) rows))
  else .ok rows

/-- `PhyloData.matrix()`: for each character (sorted charset/character
order) and each taxon (sorted order), append the cell symbol to the
taxon's row when the observation set is nonempty; finally return the
accumulated dict as a sorted list of `(taxon, vector)` pairs. -/
def NPhyloData.matrix (d : NPhyloData) : Except String (List (String × String)) := do
  let symbols ← d.symbols
  let rows ← d.characters.foldlM
    (fun (rows : List (String × String)) pc =>
      d.sortedTaxa.foldlM (matrixInnerBody d symbols pc) rows)
    []
  return pySorted (fun a b => strLe a.1 b.1) rows

/-! ## `tabular.py`: `read_data_tabular` -/

/-- The fields of the `args` dict that `read_data_tabular` and
`_get_input_column_names` consult. -/
structure TabArgs where
  iTaxa : Option String
  iChar : Option String
  iState : Option String
  input : String
  deriving Repr, DecidableEq

/-- One candidate-scan pass of `_get_input_column_names`: for each
candidate and each column, set the current name to the column when it is
still unset and the candidate occurs in `slug(column, "full")`. -/
def candScan (cands columns : List String) (current : Option String) : Option String :=
  cands.foldl
    (fun cur cand =>
      columns.foldl
        (fun cur column =>
          if ¬pyTruthyStrOpt cur ∧ pyContains (slug column "full") cand then some column
          else cur)
        cur)
    current

/-- Python dict lookup `entry[k]` where `k` may be `None`: a missing key
(or `None`, which is never a key of these string-keyed dicts) raises
`KeyError`. -/
def dictGet (entry : List (String × String)) (k : Option String) : Except String String :=
  match k with
  | none => .error "KeyError: None"
  | some key =>
      match alistFind key entry with
      | some v => .ok v
      | none => .error "KeyError: column not in row"

/-- `tabular._get_input_column_names(args, data)`: provided names are used
when all three are truthy, otherwise candidates are inferred from
`data[0].keys()` (raising `IndexError` on empty data); a final check
raises `AssertionError` unless the three resolved names are distinct. -/
def getInputColumnNames (args : TabArgs) (data : List (List (String × String))) :
    Except String (Option String × Option String × Option String) := do
  let resolved ←
    if pyTruthyStrOpt args.iTaxa ∧ pyTruthyStrOpt args.iChar ∧ pyTruthyStrOpt args.iState then
      pure (args.iTaxa, args.iChar, args.iState)
    else
      match data with
      | [] => .error "IndexError: list index out of range"
      | first :: _ =>
          let columns := (first.map Prod.fst).filter
            (fun col => some col ≠ args.iTaxa ∧ some col ≠ args.iChar ∧ some col ≠ args.iState)
          let colTaxa := candScan
            ["taxon", "species", "language", "doculect", "manuscript", "witness"]
            columns args.iTaxa
          let colChar := candScan ["character", "feature", "property", "position"]
            columns args.iChar
          let colState := candScan
            ["state", "value", "observation", "cognate", "lesson", "reading"]
            columns args.iState
          pure (colTaxa, colChar, colState)
  if ([resolved.1, resolved.2.1, resolved.2.2].eraseDups).length < 3 then
    .error "AssertionError: Non-unique column names"
  else
    return resolved

/-- The non-blank rows of a tabular source:
`source_str.replace("\r", "").split("\n")` filtered by `row.strip()`
truthiness. -/
def tabularRows (source : String) : List String :=
  (pySplitSep '\n' ⟨source.data.filter (fun c => c ≠ '\r')⟩).filter
    (fun r => pyStrip r ≠ "")

/-- The per-row dicts built by `read_data_tabular` from the header row
(`dict(zip(header, row.split(delimiter)))`, later keys overwriting). -/
def tabularData (delimiter : Char) (header : String) (dataRows : List String) :
    List (List (String × String)) :=
  dataRows.map (fun row =>
    ((pySplitSep delimiter header).zip (pySplitSep delimiter row)).foldl
      (fun acc p => alistUpsert p.1 "" (fun _ => p.2) acc) [])

/-- `tabular.read_data_tabular(source_str, delimiter, args)`: split rows,
build one dict per data row from the header, resolve column names, and
feed every row into `PhyloData.extend` with a two-element key. -/
def readDataTabular (source : String) (delimiter : Char) (args : TabArgs) :
    Except String NPhyloData :=
  match tabularRows source with
  | [] => .error "IndexError: list index out of range"
  | header :: dataRows => do
      let cols ← getInputColumnNames args (tabularData delimiter header dataRows)
      (tabularData delimiter header dataRows).foldlM
        (fun phyd entry => do
          let t ← dictGet entry cols.1
          let c ← dictGet entry cols.2.1
          let v ← dictGet entry cols.2.2
          phyd.extend (.pair t c) v)
        NPhyloData.empty

/-! ## A small backtracking regex engine

`nexus.py` drives its parsing with `re.match`/`re.search` calls whose
patterns are all sequences of literals and greedy character-class
one/plus/star elements with single-class capture groups.  The engine below
implements exactly that fragment with Python's leftmost, greedy,
backtracking semantics; each source pattern is then written down as a
pattern value. -/

/-- One element of a regex pattern: a literal character, an uncaptured
character class (`.`, one occurrence), a greedy star or plus over a class,
or a capture group over one (`(.)`) or one-or-more (`(\d+)`, `(.+)`, ...)
class occurrences. -/
inductive RElem where
  | lit (c : Char)
  | star (p : Char → Bool)
  | plus (p : Char → Bool)
  | grpOne (p : Char → Bool)
  | grpPlus (p : Char → Bool)

/-- First success of `f` over the list, in order (used for greedy
backtracking over candidate repetition lengths). -/
def firstSome (f : Nat → Option α) : List Nat → Option α
  | [] => none
  | k :: ks =>
      match f k with
      | some r => some r
      | none => firstSome f ks

/-- Candidate repetition lengths for a greedy element with maximal run
`m`: `m, m-1, ..., lo`. -/
def greedyLens (m lo : Nat) : List Nat :=
  ((List.range (m + 1)).filter (fun k => lo ≤ k)).reverse

/-- Match the pattern at the start of `xs` (Python `re.match` without
end-anchoring), returning the captured groups in order. -/
def reMatch : List RElem → List Char → Option (List String)
  | [], _ => some []
  | .lit _ :: _, [] => none
  | .lit c :: ps, x :: xs => if x = c then reMatch ps xs else none
  | .star p :: ps, xs =>
      let m := (xs.takeWhile p).length
      firstSome (fun k => reMatch ps (xs.drop k)) (greedyLens m 0)
  | .plus p :: ps, xs =>
      let m := (xs.takeWhile p).length
      firstSome (fun k => reMatch ps (xs.drop k)) (greedyLens m 1)
  | .grpOne _ :: _, [] => none
  | .grpOne p :: ps, x :: xs =>
      if p x then (reMatch ps xs).map (fun gs => (⟨[x]⟩ : String) :: gs) else none
  | .grpPlus p :: ps, xs =>
      let m := (xs.takeWhile p).length
      firstSome
        (fun k => (reMatch ps (xs.drop k)).map (fun gs => (⟨xs.take k⟩ : String) :: gs))
        (greedyLens m 1)

/-- Python `re.search`: try `reMatch` at every start position, leftmost
first. -/
def reSearchL (pat : List RElem) : List Char → Option (List String)
  | [] => reMatch pat []
  | x :: xs =>
      match reMatch pat (x :: xs) with
      | some gs => some gs
      | none => reSearchL pat xs

/-- `re.search(pat, s)`. -/
def reSearch (pat : List RElem) (s : String) : Option (List String) :=
  reSearchL pat s.data

/-- A sequence of literal characters. -/
def lits (s : String) : List RElem :=
  s.data.map RElem.lit

/-- Regex `\d` (ASCII). -/
def digitCls (c : Char) : Bool := '0' ≤ c ∧ c ≤ '9'

/-- Regex `\w` (restricted to ASCII, which covers the sources' usage). -/
def wordCls (c : Char) : Bool :=
  ('a' ≤ c ∧ c ≤ 'z') ∨ ('A' ≤ c ∧ c ≤ 'Z') ∨ digitCls c ∨ c = '_'

/-- Regex `.`: any character except a newline. -/
def anyNotNL (c : Char) : Bool := c ≠ '\n'

/-- Regex `\S`. -/
def nonWsCls (c : Char) : Bool := !pyIsSpace c

/-- Parse the all-digits capture of a `(\d+)` group. -/
def digitsToNat (s : String) : Nat :=
  s.data.foldl (fun acc c => acc * 10 + (c.toNat - '0'.toNat)) 0

/-- Python `int(s)` for the strings produced here: all-digit strings
parse, anything else raises `ValueError`. -/
def pyInt (s : String) : Except String Nat :=
  if s ≠ "" ∧ s.data.all digitCls then .ok (digitsToNat s)
  else .error "ValueError: invalid literal for int()"

/-! ## Python `str.find` and slicing -/

/-- First index of `needle` in `hay` at or after position `i`, if any. -/
def findSubFrom (hay needle : List Char) (i : Nat) : Option Nat :=
  match hay with
  | [] => if needle = [] ∧ i = 0 then some 0 else none
  | _ :: rest =>
      if i = 0 then
        if needle.isPrefixOf hay then some 0
        else (findSubFrom rest needle 0).map (· + 1)
      else (findSubFrom rest needle (i - 1)).map (· + 1)

/-- Python `s.find(sub, start)`: a negative `start` counts from the end
(clamped at zero); returns `-1` when the substring does not occur. -/
def pyFindFrom (s sub : String) (start : Int) : Int :=
  let n : Int := s.data.length
  let st : Nat := (if start < 0 then max (n + start) 0 else min start n).toNat
  match findSubFrom s.data sub.data st with
  | some i => i
  | none => -1

/-- Python `s.find(sub)`. -/
def pyFind (s sub : String) : Int :=
  pyFindFrom s sub 0

/-- Python slicing `s[a:b]` with full index normalization (negative
indices count from the end, out-of-range indices clamp). -/
def pySlice (s : String) (a b : Int) : String :=
  let n : Int := s.data.length
  let a' : Nat := (if a < 0 then max (n + a) 0 else min a n).toNat
  let b' : Nat := (if b < 0 then max (n + b) 0 else min b n).toNat
  ⟨(s.data.take b').drop a'⟩

/-! ## `nexus.py`: `parse_nexus` -/

/-- The `nexus_data` record filled by `parse_nexus` (nullable where
absent). -/
structure NexusData where
  ntax : Option Nat := none
  nchar : Option Nat := none
  datatype : Option String := none
  missing : Option String := none
  gap : Option String := none
  symbols : Option String := none
  charstateLabels : List (Nat × String) := []
  charstateStates : List (String × List String) := []
  matrix : List (String × String) := []
  charset : List (String × Nat × Nat) := []
  deriving Repr, DecidableEq

/-- The automaton states of `parse_nexus`. -/
inductive ParserState where
  | NONE
  | OUT_OF_BLOCK
  | IN_BLOCK
  deriving Repr, DecidableEq

/-- The loop state of `parse_nexus`: the character buffer, the last block
name, the automaton state and the accumulated `nexus_data`. -/
structure NexusLoopState where
  buffer : List Char := []
  blockName : String := ""
  pstate : ParserState := .NONE
  nd : NexusData := {}

/-- `re.match(r"BEGIN\s+(.+)\s*;", ...)`. -/
def patBegin : List RElem :=
  lits "BEGIN" ++ [.plus pyIsSpace, .grpPlus anyNotNL, .star pyIsSpace, .lit ';']

/-- `re.search(KEY + r"\s*=\s*(\d+)", ...)`. -/
def patKeyNum (key : String) : List RElem :=
  lits key ++ [.star pyIsSpace, .lit '=', .star pyIsSpace, .grpPlus digitCls]

/-- `re.search(r"DATATYPE\s*=\s*(\w+)", ...)`. -/
def patDatatype : List RElem :=
  lits "DATATYPE" ++ [.star pyIsSpace, .lit '=', .star pyIsSpace, .grpPlus wordCls]

/-- `re.search(KEY + r"\s*=\s*(.)", ...)` for `MISSING` / `GAP`. -/
def patKeyChar (key : String) : List RElem :=
  lits key ++ [.star pyIsSpace, .lit '=', .star pyIsSpace, .grpOne anyNotNL]

/-- `re.search(r"SYMBOLS\s*=\s*\"([^\"]+)\"", ...)`. -/
def patSymbols : List RElem :=
  lits "SYMBOLS" ++
    [.star pyIsSpace, .lit '=', .star pyIsSpace, .lit '"',
     .grpPlus (fun c => c ≠ '"'), .lit '"']

/-- `re.search(r"(\d+)\s+(\S+)\s*/(.+)", ...)` for slash-form
charstatelabel entries. -/
def patCharstateSlash : List RElem :=
  [.grpPlus digitCls, .plus pyIsSpace, .grpPlus nonWsCls, .star pyIsSpace,
   .lit '/', .grpPlus anyNotNL]

/-- `re.search(r"charset\s*(\w+)\s*=\s*(\d+)\s*-\s*(\d+)", ...)`. -/
def patCharset : List RElem :=
  lits "charset" ++
    [.star pyIsSpace, .grpPlus wordCls, .star pyIsSpace, .lit '=',
     .star pyIsSpace, .grpPlus digitCls, .star pyIsSpace, .lit '-',
     .star pyIsSpace, .grpPlus digitCls]

/-- Process one `CHARSTATELABELS` entry (already whitespace-collapsed and
stripped); empty entries are skipped, a slash entry whose regex does not
match raises `AttributeError` (`match.group` on `None`), and a non-slash
entry must split into exactly `<index> <label>` with a numeric index. -/
def processCharstatelabel (entry : String) (nd : NexusData) :
    Except String NexusData := do
  if entry = "" then
    return nd
  else if pyContains entry "/" then
    match reSearch patCharstateSlash entry with
    | some [idx, charlabel, statesRaw] =>
        return { nd with
          charstateLabels :=
            alistUpsert (digitsToNat idx) "" (fun _ => charlabel) nd.charstateLabels
          charstateStates :=
            alistUpsert charlabel [] (fun _ => pySplitWS statesRaw) nd.charstateStates }
    | _ => .error "AttributeError: NoneType has no attribute group"
  else
    match pySplitWS entry with
    | [idx, charlabel] => do
        let i ← pyInt idx
        return { nd with
          charstateLabels := alistUpsert i "" (fun _ => charlabel) nd.charstateLabels }
    | _ => .error "ValueError: unpack of charstatelabel entry failed"

/-- Process one `MATRIX` row `<taxon> <vector>` (raises `ValueError` when
the row does not split into exactly two tokens). -/
def processMatrixRow (row : String) (nd : NexusData) : Except String NexusData := do
  let entry := collapseWS ' ' (pyStrip row)
  match pySplitWS entry with
  | [taxon, vector] =>
      return { nd with matrix := alistUpsert taxon "" (fun _ => vector) nd.matrix }
  | _ => .error "ValueError: unpack of matrix row failed"

/-- Dispatch one in-block statement of `parse_nexus` on its leading
keyword; unrecognised statements are silently ignored. -/
def processCommand (buffer : String) (nd : NexusData) : Except String NexusData := do
  let command ←
    match pySplitWS buffer with
    | [] => .error "IndexError: list index out of range"
    | tok :: _ => pure (pyUpper tok)
  if command = "DIMENSIONS" then
    let up := pyUpper buffer
    let nd := match reSearch (patKeyNum "NTAX") up with
      | some [v] => { nd with ntax := some (digitsToNat v) }
      | _ => nd
    let nd := match reSearch (patKeyNum "NCHAR") up with
      | some [v] => { nd with nchar := some (digitsToNat v) }
      | _ => nd
    return nd
  else if command = "FORMAT" then
    let up := pyUpper buffer
    let nd := match reSearch patDatatype up with
      | some [v] => { nd with datatype := some v }
      | _ => nd
    let nd := match reSearch (patKeyChar "MISSING") up with
      | some [v] => { nd with missing := some v }
      | _ => nd
    let nd := match reSearch (patKeyChar "GAP") up with
      | some [v] => { nd with gap := some v }
      | _ => nd
    let nd := match reSearch patSymbols up with
      | some [v] => { nd with symbols := some ⟨v.data.filter (fun c => c ≠ ' ')⟩ }
      | _ => nd
    return nd
  else if command = "CHARSTATELABELS" then
    let cb := collapseWS ' ' (pyStrip buffer)
    let startIdx := pyFindFrom cb " " (pyFind cb "CHARSTATELABELS")
    let body := pySlice cb startIdx (-1)
    (pySplitSep ',' body).foldlM
      (fun nd part => processCharstatelabel (collapseWS ' ' (pyStrip part)) nd) nd
  else if command = "MATRIX" then
    let startIdx := pyFind buffer "MATRIX" + 6
    let body := pyStrip (pySlice buffer (startIdx + 1) (-1))
    (pySplitSep '\n' body).foldlM (fun nd row => processMatrixRow row nd) nd
  else if command = "CHARSET" then
    match reSearch patCharset buffer with
    | some [label, s, e] =>
        return { nd with
          charset := nd.charset ++ [(label, digitsToNat s, digitsToNat e)] }
    | _ => return nd
  else
    return nd

/-- One iteration of `parse_nexus`'s character loop: extend the buffer,
then dispatch on the automaton state. -/
def nexusStep (st : NexusLoopState) (idx : Nat) (char : Char) :
    Except String NexusLoopState := do
  let buffer := st.buffer ++ [char]
  match st.pstate with
  | .NONE =>
      if pyStrip ⟨buffer⟩ = "#NEXUS" then
        return { st with buffer := [], pstate := .OUT_OF_BLOCK }
      else
        return { st with buffer := buffer }
  | .OUT_OF_BLOCK =>
      if char = ';' then
        match reMatch patBegin (pyStrip (pyUpper ⟨buffer⟩)).data with
        | some [name] =>
            return { st with buffer := [], blockName := name, pstate := .IN_BLOCK }
        | _ => .error s!"Unable to parse NEXUS block at char {idx}."
      else
        return { st with buffer := buffer }
  | .IN_BLOCK =>
      if char = ';' then
        if removeWS (pyStrip (pyUpper ⟨buffer⟩)) = "END;" then
          return { st with buffer := [], pstate := .OUT_OF_BLOCK }
        else do
          let nd ← processCommand ⟨buffer⟩ st.nd
          return { st with buffer := [], nd := nd }
      else
        return { st with buffer := buffer }

/-- `nexus.parse_nexus(source)`: the single-pass character automaton. -/
def parseNexus (source : String) : Except String NexusData := do
  let final ← source.data.enum.foldlM (fun st p => nexusStep st p.1 p.2) {}
  return final.nd

/-! ## `nexus.py`: `read_data_nexus` -/

/-- The inverse map from 1-based alignment position to charset name built
by `read_data_nexus` (`alm2charset`). -/
def nexusAlm2Charset (nd : NexusData) : List (Nat × String) :=
  nd.charset.foldl
    (fun acc cs =>
      (List.range' cs.2.1 (cs.2.2 + 1 - cs.2.1)).foldl
        (fun acc idx => alistUpsert idx "" (fun _ => cs.1) acc) acc)
    []

/-- The `states` dict assembled by `read_data_nexus` from the parsed
record: with declared charsets, cells are resolved through the inverse
position-to-charset map (raising `KeyError` for uncovered positions or
missing charstate labels); without charsets, each vector position is
zipped against the `charstate_states` keys. -/
def nexusStatesAssembly (nd : NexusData) :
    Except String (List ((String × String) × List String)) := do
  if nd.charset ≠ [] then
    nd.matrix.foldlM
      (fun states p =>
        p.2.data.enum.foldlM
          (fun states q => do
            if some (⟨[q.2]⟩ : String) = nd.missing then
              match alistFind (q.1 + 1) (nexusAlm2Charset nd) with
              | some cs =>
                  return alistUpsert (p.1, cs) [] (fun vs => pyInsert vs "?") states
              | none => .error "KeyError: position not covered by a charset"
            else if some (⟨[q.2]⟩ : String) = nd.gap then
              return states
            else if (⟨[q.2]⟩ : String) ≠ "0" then
              match alistFind (q.1 + 1) (nexusAlm2Charset nd) with
              | some cs =>
                  match alistFind (q.1 + 1) nd.charstateLabels with
                  | some lbl =>
                      return alistUpsert (p.1, cs) [] (fun vs => pyInsert vs lbl) states
                  | none => .error "KeyError: position has no charstate label"
              | none => .error "KeyError: position not covered by a charset"
            else
              return states)
          states)
      []
  else
    return nd.matrix.foldl
      (fun states p =>
        ((nd.charstateStates.map Prod.fst).zip (p.2.data.map (fun c => (⟨[c]⟩ : String)))).foldl
          (fun states q =>
            if some q.2 = nd.missing then
              alistUpsert (p.1, q.1) [] (fun vs => pyInsert vs "?") states
            else if some q.2 = nd.gap then
              states
            else
              alistUpsert (p.1, q.1) [] (fun vs => pyInsert vs q.2) states)
          states)
      []

/-- `nexus.read_data_nexus(source, args)`: parse, assemble the states
dict, and feed every `(taxon, character, state)` into `PhyloData.extend`
with a two-element key. -/
def readDataNexus (source : String) : Except String NPhyloData := do
  let nd ← parseNexus source
  let states ← nexusStatesAssembly nd
  states.foldlM
    (fun phyd p =>
      p.2.foldlM (fun phyd state => phyd.extend (.pair p.1.1 p.1.2) state) phyd)
    NPhyloData.empty

/-! ## Spec-side definitions

These definitions transcribe claims of the specification (not the source);
they exist to be compared with the source-derived definitions above. -/

/-- The cell symbol demanded by the specification's description of the
matrix projection: `"-"` when the taxon has no observation for the
character, `"?"` when the observation set is exactly `{"?"}`, the single
mapped symbol for one observation, and a parenthesized comma-joined list
for a polymorphic observation set (states mapped through the sorted state
tuple into the digits-plus-uppercase alphabet). -/
def specMatrixCell (states o : List String) : String :=
  if o = [] then "-"
  else if o = ["?"] then "?"
  else
    let reprs := o.map (fun v => (digitsUpper.getD (states.indexOf v) ""))
    match reprs with
    | [r] => r
    | rs => "(" ++ String.intercalate "," rs ++ ")"

/-- The matrix projection claimed by the specification: for each character
in sorted order and, within it, each taxon in sorted order, exactly one
cell symbol per `(taxon, character)` pair. -/
def specMatrix (d : NPhyloData) : List (String × String) :=
  d.sortedTaxa.map (fun t =>
    (t, (d.characters.map (fun pc =>
      specMatrixCell
        (((alistFind pc.1 d.charset).bind (alistFind pc.2)).getD ⟨[]⟩).states
        (d.getObs (t, pc.1, pc.2)))).foldl (· ++ ·) ""))

/-- The symbol the matrix projection renders for one observed value: the
symbol at the value's index in the sorted state tuple (the empty string
when the index is unresolvable, a case the amended claim excludes). -/
def symFor (states : List String) (v : String) : String :=
  match idxOf? v states with
  | none => ""
  | some i =>
      match digitsUpper.get? i with
      | none => ""
      | some s => s

/-- The cell rendering the source's matrix projection actually performs on
a nonempty observation set: no `"-"`/`"?"` special cases; every
observation (including `"?"`) is mapped through the sorted state tuple.
An empty observation set contributes nothing (the empty string). -/
def amendedMatrixCell (states o : List String) : String :=
  if o = [] then ""
  else
    match o.map (symFor states) with
    | [r] => r
    | rs => "(" ++ String.intercalate "," rs ++ ")"

/-- The cell of one `(charset, character)` column for one taxon. -/
def cellOf (d : NPhyloData) (pc : String × String) (t : String) : String :=
  amendedMatrixCell (statesOf d pc) (d.getObs (t, pc.1, pc.2))

/-- The concatenation of a taxon's cells over a list of columns. -/
def cellsConcat (d : NPhyloData) (t : String) : List (String × String) → String
  | [] => ""
  | pc :: cs => cellOf d pc t ++ cellsConcat d t cs

/-- The row the source's matrix projection produces for one taxon. -/
def amendedMatrixRow (d : NPhyloData) (t : String) : String :=
  cellsConcat d t d.characters

/-- One step of the matrix loop's `defaultdict` update, with the cell
already rendered: append the cell to the taxon's row when the observation
set is nonempty, otherwise leave the rows untouched. -/
def rowStep (d : NPhyloData) (pc : String × String)
    (rows : List (String × String)) (t : String) : List (String × String) :=
  if d.getObs (t, pc.1, pc.2) ≠ [] then
    alistUpsert t "" (fun row => row ++ cellOf d pc t) rows
  else rows

/-- The pure double loop of the matrix projection: fold the rendered-cell
update over every column and, within each column, over every taxon. -/
def rowsPure (d : NPhyloData) (cs : List (String × String))
    (rows0 : List (String × String)) : List (String × String) :=
  cs.foldl (fun rows pc => d.sortedTaxa.foldl (rowStep d pc) rows) rows0

/-- The amended matrix projection: taxa in sorted order, each with the
concatenation of its per-character cells (characters in sorted
charset/character order); taxa all of whose cells are empty do not appear
at all. -/
def amendedMatrix (d : NPhyloData) : List (String × String) :=
  d.sortedTaxa.filterMap (fun t =>
    if amendedMatrixRow d t = "" then none else some (t, amendedMatrixRow d t))

/-! ## Concrete example data used by the claim theorems -/

/-- Build an `OldPhyloData` by a sequence of `add_state` calls
`(taxon, character, state, charset)`. -/
def oldBuild (ops : List (String × String × String × Option String)) : OldPhyloData :=
  ops.foldl (fun d o => d.addState o.1 o.2.1 o.2.2.1 o.2.2.2) .empty

/-- Build a new `PhyloData` by a sequence of `extend` calls with
three-element keys `(taxon, charset, character)` and a value. -/
def newBuild (ops : List (String × Option String × String × String)) :
    Except String NPhyloData :=
  ops.foldlM (fun d o => d.extend (.triple o.1 o.2.1 o.2.2.1) o.2.2.2) .empty

/-- A small dataset: taxon `A` observes `?` for character `c` and `y` for
`d`; taxon `B` observes `x` for `c` and nothing for `d`. -/
def exC1 : NPhyloData :=
  ⟨["A", "B"],
   [("c", [("c", ⟨["?", "x"]⟩)]), ("d", [("d", ⟨["y"]⟩)])],
   [(("A", "c", "c"), ["?"]), (("B", "c", "c"), ["x"]), (("A", "d", "d"), ["y"])]⟩

/-- A dataset whose derived binary column names collide: character `c` has
state `x_y` and character `c_x` has state `y`, so both feed the column
`c_x_y`. -/
def exC2 : OldPhyloData :=
  oldBuild [("A", "c", "x_y", none), ("A", "c_x", "z", none), ("B", "c_x", "y", none)]

/-- A dataset with one character whose only observation is the missing
token, so its non-missing state set is empty. -/
def exC3 : OldPhyloData :=
  oldBuild [("A", "c", "?", none)]

/-- A dataset where taxon `A`'s only observation for character `c` is the
missing token `?` while taxon `B` gives `c` the real state `x`. -/
def exC2m : OldPhyloData :=
  oldBuild [("A", "c", "?", none), ("B", "c", "x", none)]

/-- A dataset with a taxon label that the `"simple"` slug level rewrites. -/
def exC6 : OldPhyloData :=
  oldBuild [("A b", "c", "x", none)]

/-- Explicit tabular column names for the reader examples. -/
def argsExplicit : TabArgs :=
  ⟨some "Taxon", some "Character", some "State", "-"⟩

/-- A collision-free dataset: two taxa `A`, `B`, one character `c` with
states `x` and `y`; the derived binary column names are all distinct. -/
def exBin : OldPhyloData :=
  oldBuild [("A", "c", "x", none), ("B", "c", "y", none)]

/-! ## Analysis helpers for `binarize`

`binarize` derives the name of every output column by string
concatenation (`<character>_ASCERTAINMENT` and `<character>_<state>`), so
distinct (character, state) sources can collide on the same column name.
`ColSrc` names a column's source, `colName` the derived column name, and
`usedSrcs` the sources a dataset actually uses. -/

/-- The source of a binarized column: a per-state column or a character's
ascertainment column. -/
inductive ColSrc where
  | state (c s : String)
  | asc (c : String)
  deriving Repr, DecidableEq

/-- The column name `binarize` derives for a source. -/
def colName : ColSrc → String
  | .state c s => c ++ "_" ++ s
  | .asc c => c ++ "_ASCERTAINMENT"

/-- The column sources a dataset's binarization uses: one ascertainment
source per character and one per-state source per non-missing state. -/
def usedSrcs (d : OldPhyloData) : List ColSrc :=
  d.charstates.flatMap (fun p => ColSrc.asc p.1 :: p.2.map (fun s => ColSrc.state p.1 s))

/-- The values that a sequence of `add_state` calls contributes to one
`(taxon, column)` observation key, in call order. -/
def collectVals (key : String × String)
    (ops : List (String × String × String × Option String)) : List String :=
  (ops.filter (fun o => (o.1, o.2.1) = key)).map (fun o => o.2.2.1)

/-- The pointwise function behind `binRow`: the binary observation of one
state given the taxon's observation set.  `MISSING` never occurs — the
`tuple(obs) == "?"` guard of its branch is dead — so a missing-only
observation set yields `FALSE` per state like any set not containing the
state. -/
def gFun (obs : Option (List String)) (s : String) : BinaryObs :=
  match obs with
  | none => BinaryObs.GAP
  | some o =>
      if o = [] then BinaryObs.GAP
      else if s ∈ o then BinaryObs.TRUE else BinaryObs.FALSE

/-- The `add_state` calls `binarize` emits for one `(taxon, character,
state)` slot: the ascertainment call and, for non-gaps, the per-state
call. -/
def opsFor (taxon character : String) (ob : BinaryObs) (stateLabel : String) :
    List (String × String × String × Option String) :=
  (taxon, character ++ "_ASCERTAINMENT", "0", some character) ::
    if ob ≠ BinaryObs.GAP then
      [(taxon, character ++ "_" ++ stateLabel, binaryOpsMap ob, some character)]
    else []

end Panphylo

deriving instance DecidableEq for Except

namespace Panphylo

/-! ## Theorems -/

/-- Claim C8 (counterexample): at level `"simple"`, `slug` keeps the
underscore produced by the whitespace run before `"[?]"` even though every
character of `"[?]"` is dropped, so the result is `"Aland_3_"`, not the
claimed `"Aland_3"`. -/
theorem C8_counterexample :
    slug "Åland (#3) [?]" "simple" = "Aland_3_" ∧ "Aland_3_" ≠ "Aland_3" := by
  constructor
  · rfl
  · decide

/-- Claim C8 (amended): `slug "Åland (#3) [?]"` is the identity at level
`"none"`, `"Aland_3_"` at level `"simple"` (transliterated, whitespace
runs collapsed to underscores, characters outside `[A-Za-z0-9_-]`
dropped — including a trailing underscore when the final bracketed
segment is dropped), and `"aland"` at level `"full"`. -/
theorem C8_slug_values :
    slug "Åland (#3) [?]" "none" = "Åland (#3) [?]" ∧
    slug "Åland (#3) [?]" "simple" = "Aland_3_" ∧
    slug "Åland (#3) [?]" "full" = "aland" :=
  ⟨rfl, rfl, rfl⟩

/-- Claim C9 (code bug): for a level outside `{"none", "simple",
"full"}`, `slug` does not raise: the `if/elif` chain has no `else` branch,
so the label is returned unchanged.  This contradicts the repository's own
test (`test_common.py::test_slug` expects a `ValueError` for level
`"WRONG LABEL"`). -/
theorem C9_slug_unknown_level :
    "WRONG LABEL" ∉ ["none", "simple", "full"] ∧
    slug "Åland (#3) [?]" "WRONG LABEL" = "Åland (#3) [?]" := by
  constructor
  · decide
  · rfl

/-- Claim C6 (code bug): `slug_taxa("simple")` replaces the taxa set by
the slugged labels but rebuilds the observation map with its keys copied
verbatim (the computed slug map is never applied to them), so afterwards
the observation key `("A b", "c")` survives while the taxa set holds only
`"A_b"`. -/
theorem C6_slug_taxa_keys_not_updated :
    exC6.slugTaxa "simple" =
      .ok ⟨["A_b"], ["c"], [], [(("A b", "c"), ["x"])]⟩ ∧
    "A b" ∉ (["A_b"] : List String) := by
  constructor
  · rfl
  · decide

/-- Helper: a step of `parse_nexus` in the initial automaton state just
extends the buffer when the stripped buffer is not the NEXUS header. -/
theorem nexusStep_none (st : NexusLoopState) (hp : st.pstate = .NONE) (idx : Nat)
    (c : Char) (hne : pyStrip ⟨st.buffer ++ [c]⟩ ≠ "#NEXUS") :
    nexusStep st idx c = .ok { st with buffer := st.buffer ++ [c] } := by
  unfold nexusStep
  rw [hp]
  simp only [if_neg hne]
  rfl

/-- Helper: the prefixes of an `enumFrom`, projected to characters, are
the prefixes of the underlying list. -/
theorem enumFrom_take_map_snd (l : List α) :
    ∀ (i k : Nat), ((List.enumFrom i l).take k).map Prod.snd = l.take k := by
  induction l with
  | nil => intro i k; simp
  | cons x xs ih =>
      intro i k
      cases k with
      | zero => simp
      | succ k => simp [List.enumFrom, ih]

/-- Helper: as long as no prefix of the remaining input strips to
`#NEXUS`, the `parse_nexus` automaton stays in its initial state,
accumulating the input into the buffer and touching nothing else. -/
theorem nexusLoop_none (cs : List (Nat × Char)) :
    ∀ (st : NexusLoopState), st.pstate = .NONE →
    (∀ k, k ≤ cs.length →
      pyStrip ⟨st.buffer ++ (cs.take k).map Prod.snd⟩ ≠ "#NEXUS") →
    cs.foldlM (fun st p => nexusStep st p.1 p.2) st =
      .ok { st with buffer := st.buffer ++ cs.map Prod.snd } := by
  induction cs with
  | nil =>
      intro st hp h
      show Except.ok st = _
      simp
  | cons p rest ih =>
      intro st hp h
      have h1 : pyStrip ⟨st.buffer ++ [p.2]⟩ ≠ "#NEXUS" := by
        have := h 1 (by simp)
        simpa using this
      have hstep := nexusStep_none st hp p.1 p.2 h1
      have h' : ∀ k, k ≤ rest.length →
          pyStrip ⟨(st.buffer ++ [p.2]) ++ (rest.take k).map Prod.snd⟩ ≠ "#NEXUS" := by
        intro k hk
        have := h (k + 1) (by simpa using Nat.succ_le_succ hk)
        simpa [List.append_assoc] using this
      have hbind : (p :: rest).foldlM (fun st q => nexusStep st q.1 q.2) st =
          rest.foldlM (fun st q => nexusStep st q.1 q.2)
            { st with buffer := st.buffer ++ [p.2] } := by
        rw [List.foldlM_cons, hstep]
        rfl
      rw [hbind, ih { st with buffer := st.buffer ++ [p.2] } hp h']
      simp

/-- Claim C10 (amended): `parse_nexus` never raises over a missing
header — when no prefix of the source strips to exactly `#NEXUS`, the
automaton stays in its initial state for the whole input and the empty
parse record is returned without error. -/
theorem C10_missing_header_returns_empty (source : String)
    (h : ((List.range (source.length + 1)).all
      (fun k => pyStrip ⟨source.data.take k⟩ != "#NEXUS")) = true) :
    parseNexus source = .ok {} := by
  have h' : ∀ k, k ≤ source.data.length →
      pyStrip ⟨source.data.take k⟩ ≠ "#NEXUS" := by
    intro k hk
    have := List.all_eq_true.mp h k
      (List.mem_range.mpr (Nat.lt_succ_of_le hk))
    simpa using this
  unfold parseNexus
  have hrun := nexusLoop_none source.data.enum {} rfl (by
    intro k hk
    simp only [List.enum] at hk ⊢
    rw [enumFrom_take_map_snd]
    exact h' k (by simpa using hk))
  rw [hrun]
  rfl

/-- Claim C10 (witness for the amended theorem): the amended theorem at
the concrete headerless source `"abc"`. -/
theorem C10_witness :
    parseNexus "abc" = .ok {} :=
  C10_missing_header_returns_empty "abc" (by decide)

/-- Helper: a fold in the `Except` monad fails as soon as its first step
fails. -/
theorem foldlM_cons_error {f : β → α → Except ε β} {b : β} {a : α} {l : List α}
    {m : ε} (h : f b a = .error m) : (a :: l).foldlM f b = .error m := by
  rw [List.foldlM_cons, h]
  rfl

/-- Helper: an invariant preserved by every successful step of an
`Except` fold holds of a successful fold's result. -/
theorem foldlM_ok_induction (P : β → Prop) {f : β → α → Except ε β} :
    ∀ (l : List α) (init : β), P init →
    (∀ b a, a ∈ l → P b → ∀ b', f b a = .ok b' → P b') →
    ∀ final, l.foldlM f init = .ok final → P final := by
  intro l
  induction l with
  | nil =>
      intro init h0 _ final hf
      cases hf
      exact h0
  | cons a rest ih =>
      intro init h0 hstep final hf
      rw [List.foldlM_cons] at hf
      cases hfa : f init a with
      | error m => rw [hfa] at hf; cases hf
      | ok b' =>
          rw [hfa] at hf
          exact ih b' (hstep init a (by simp) h0 b' hfa)
            (fun b x hx hb => hstep b x (by simp [hx]) hb) final hf

/-- Helper: every value of an `alistUpsert` result satisfies `P` when the
old values do, `f` preserves `P`, and the freshly inserted value
satisfies it. -/
theorem alistUpsert_values (P : β → Prop) {k : α} [DecidableEq α] {d0 : β} {f : β → β}
    (hf : ∀ v, P v → P (f v)) (hd : P (f d0)) :
    ∀ (l : List (α × β)), (∀ e ∈ l, P e.2) →
    ∀ e ∈ alistUpsert k d0 f l, P e.2 := by
  intro l
  induction l with
  | nil =>
      intro _ e he
      simp only [alistUpsert, List.mem_singleton] at he
      subst he
      exact hd
  | cons p rest ih =>
      intro hold e he
      simp only [alistUpsert] at he
      by_cases hk : p.1 = k
      · rw [if_pos hk] at he
        rcases List.mem_cons.mp he with h1 | h1
        · subst h1
          exact hf p.2 (hold p (by simp))
        · exact hold e (List.mem_cons_of_mem _ h1)
      · rw [if_neg hk] at he
        rcases List.mem_cons.mp he with h1 | h1
        · subst h1
          exact hold p (by simp)
        · exact ih (fun x hx => hold x (List.mem_cons_of_mem _ hx)) e h1

/-- Helper: `pyInsert` never produces the empty list. -/
theorem pyInsert_ne_nil (l : List String) (x : String) : pyInsert l x ≠ [] := by
  unfold pyInsert
  by_cases h : x ∈ l
  · rw [if_pos h]
    intro hl
    rw [hl] at h
    cases h
  · rw [if_neg h]
    simp

/-- Helper: an invariant preserved by every step of a pure fold holds of
the fold's result. -/
theorem foldl_preserves (P : β → Prop) {f : β → α → β} :
    ∀ (l : List α) (init : β), P init → (∀ b a, a ∈ l → P b → P (f b a)) →
    P (l.foldl f init) := by
  intro l
  induction l with
  | nil => intro init h0 _; exact h0
  | cons a rest ih =>
      intro init h0 hstep
      exact ih (f init a) (hstep init a (by simp) h0)
        (fun b x hx hb => hstep b x (by simp [hx]) hb)

/-- Helper: every observation set assembled by `read_data_nexus` is
nonempty (each entry is created or extended through `pyInsert`). -/
theorem nexusStatesAssembly_values_ne_nil (nd : NexusData) (sts : List ((String × String) × List String))
    (h : nexusStatesAssembly nd = .ok sts) : ∀ e ∈ sts, e.2 ≠ [] := by
  unfold nexusStatesAssembly at h
  by_cases hcs : nd.charset ≠ []
  · rw [if_pos hcs] at h
    refine foldlM_ok_induction (fun sts => ∀ e ∈ sts, e.2 ≠ []) nd.matrix [] (by intro e he; cases he) ?_ sts h
    intro b p _ hb b' hfb
    refine foldlM_ok_induction (fun sts => ∀ e ∈ sts, e.2 ≠ []) p.2.data.enum b hb ?_ b' hfb
    intro c q _ hc c' hfc
    simp only at hfc
    by_cases h1 : some (⟨[q.2]⟩ : String) = nd.missing
    · rw [if_pos h1] at hfc
      cases h2 : alistFind (q.1 + 1) (nexusAlm2Charset nd) with
      | none => rw [h2] at hfc; cases hfc
      | some cs =>
          rw [h2] at hfc
          cases hfc
          exact alistUpsert_values (fun l => l ≠ []) (fun v _ => pyInsert_ne_nil v "?")
            (pyInsert_ne_nil [] "?") c hc
    · rw [if_neg h1] at hfc
      by_cases h2 : some (⟨[q.2]⟩ : String) = nd.gap
      · rw [if_pos h2] at hfc
        cases hfc
        exact hc
      · rw [if_neg h2] at hfc
        by_cases h3 : (⟨[q.2]⟩ : String) ≠ "0"
        · rw [if_pos h3] at hfc
          cases h4 : alistFind (q.1 + 1) (nexusAlm2Charset nd) with
          | none => rw [h4] at hfc; cases hfc
          | some cs =>
              rw [h4] at hfc
              cases h5 : alistFind (q.1 + 1) nd.charstateLabels with
              | none => rw [h5] at hfc; cases hfc
              | some lbl =>
                  rw [h5] at hfc
                  cases hfc
                  exact alistUpsert_values (fun l => l ≠ []) (fun v _ => pyInsert_ne_nil v lbl)
                    (pyInsert_ne_nil [] lbl) c hc
        · rw [if_neg h3] at hfc
          cases hfc
          exact hc
  · rw [if_neg hcs] at h
    cases h
    refine foldl_preserves
      (fun (sts : List ((String × String) × List String)) => ∀ e ∈ sts, e.2 ≠ [])
      nd.matrix [] (by intro e he; cases he) ?_
    intro b p _ hb
    refine foldl_preserves
      (fun (sts : List ((String × String) × List String)) => ∀ e ∈ sts, e.2 ≠ [])
      _ b hb ?_
    intro c q _ hc
    by_cases h1 : some q.2 = nd.missing
    · rw [if_pos h1]
      exact alistUpsert_values (fun l => l ≠ []) (fun v _ => pyInsert_ne_nil v "?")
        (pyInsert_ne_nil [] "?") c hc
    · rw [if_neg h1]
      by_cases h2 : some q.2 = nd.gap
      · rw [if_pos h2]
        exact hc
      · rw [if_neg h2]
        exact alistUpsert_values (fun l => l ≠ []) (fun v _ => pyInsert_ne_nil v q.2)
          (pyInsert_ne_nil [] q.2) c hc

/-- Claim C5: `PhyloData.extend` unconditionally destructures its key into
three components, so every two-element key raises `ValueError`;
consequently `read_data_tabular` fails before returning on every source
with at least one (non-blank) data row, and the per-entry `extend` calls
`read_data_nexus` makes on an assembled nonempty states map fail the same
way. -/
theorem C5_two_element_extend_key_fails :
    (∀ (d : NPhyloData) (t c v : String),
      d.extend (.pair t c) v =
        .error "ValueError: not enough values to unpack (expected 3, got 2)") ∧
    (∀ (source : String) (delim : Char) (args : TabArgs),
      2 ≤ (tabularRows source).length →
      ∃ msg, readDataTabular source delim args = .error msg) ∧
    (∀ (nd : NexusData) (sts : List ((String × String) × List String)),
      nexusStatesAssembly nd = .ok sts → sts ≠ [] →
      ∃ msg,
        sts.foldlM
          (fun phyd p =>
            p.2.foldlM (fun phyd state => phyd.extend (.pair p.1.1 p.1.2) state) phyd)
          NPhyloData.empty = .error msg) := by
  refine ⟨fun _ _ _ _ => rfl, ?_, ?_⟩
  · intro source delim args h2
    unfold readDataTabular
    split
    · exact ⟨"IndexError: list index out of range", rfl⟩
    · rename_i header dataRows heq
      rw [heq] at h2
      have hstep : ∀ (cols : Option String × Option String × Option String)
          (phyd : NPhyloData) (entry : List (String × String)),
          ∃ m, (do
            let t ← dictGet entry cols.1
            let c ← dictGet entry cols.2.1
            let v ← dictGet entry cols.2.2
            phyd.extend (.pair t c) v) = (Except.error m : Except String NPhyloData) := by
        intro cols phyd entry
        cases h1 : dictGet entry cols.1 with
        | error m => exact ⟨m, rfl⟩
        | ok t =>
            cases hb : dictGet entry cols.2.1 with
            | error m => exact ⟨m, rfl⟩
            | ok c =>
                cases hc : dictGet entry cols.2.2 with
                | error m => exact ⟨m, rfl⟩
                | ok v =>
                    exact ⟨"ValueError: not enough values to unpack (expected 3, got 2)",
                      rfl⟩
      cases hdata : dataRows with
      | nil => rw [hdata] at h2; simp at h2
      | cons row rest =>
          subst hdata
          cases hcols : getInputColumnNames args
              (tabularData delim header (row :: rest)) with
          | error m =>
              exact ⟨m, rfl⟩
          | ok cols =>
              obtain ⟨m, hm⟩ := hstep cols NPhyloData.empty
                (((pySplitSep delim header).zip (pySplitSep delim row)).foldl
                  (fun acc p => alistUpsert p.1 "" (fun _ => p.2) acc) [])
              refine ⟨m, ?_⟩
              show Except.bind _ _ = _
              simp only [Except.bind]
              simp only [tabularData, List.map_cons]
              exact foldlM_cons_error hm
  · intro nd sts hok hne
    have hvals := nexusStatesAssembly_values_ne_nil nd sts hok
    cases sts with
    | nil => cases hne rfl
    | cons e rest =>
        cases hval : e.2 with
        | nil => exact absurd hval (hvals e (by simp))
        | cons v vs =>
            refine ⟨"ValueError: not enough values to unpack (expected 3, got 2)", ?_⟩
            refine foldlM_cons_error ?_
            rw [hval]
            exact foldlM_cons_error rfl

/-- Claim C5 (witness): the components of the theorem at concrete inputs:
`extend` on an empty model with a two-element key, a one-data-row CSV
source, and a one-entry assembled NEXUS states map. -/
theorem C5_witness :
    NPhyloData.empty.extend (.pair "A" "c") "x" =
      .error "ValueError: not enough values to unpack (expected 3, got 2)" ∧
    (∃ msg, readDataTabular "Taxon,Character,State\nA,c,y" ',' argsExplicit = .error msg) ∧
    (∃ msg,
      [(("t", "c1"), ["1"])].foldlM
        (fun (phyd : NPhyloData) p =>
          p.2.foldlM (fun phyd state => phyd.extend (.pair p.1.1 p.1.2) state) phyd)
        NPhyloData.empty = .error msg) := by
  refine ⟨C5_two_element_extend_key_fails.1 NPhyloData.empty "A" "c" "x", ?_, ?_⟩
  · exact C5_two_element_extend_key_fails.2.1 "Taxon,Character,State\nA,c,y" ',' argsExplicit
      (by decide)
  · exact C5_two_element_extend_key_fails.2.2
      { matrix := [("t", "1")], missing := some "?",
        charstateStates := [("c1", ["x", "y"])] }
      [(("t", "c1"), ["1"])] (by rfl) (by decide)

/-- Claim C1 (counterexample): on the reachable dataset `exC1`, the matrix
projection renders the observation set `{"?"}` through the sorted state
tuple (symbol `"0"`) instead of the claimed `"?"`, and emits nothing at
all — not the claimed `"-"` — for the cell with no observation, so taxon
`B`'s vector is `"1"` instead of `"1-"`. -/
theorem C1_counterexample :
    newBuild [("A", none, "c", "?"), ("B", none, "c", "x"), ("A", none, "d", "y")] =
      .ok exC1 ∧
    exC1.matrix = .ok [("A", "00"), ("B", "1")] ∧
    specMatrix exC1 = [("A", "?0"), ("B", "1-")] ∧
    exC1.matrix ≠ .ok (specMatrix exC1) := by
  refine ⟨rfl, rfl, rfl, ?_⟩
  decide

/-- Helper: looking up the upserted key. -/
theorem alistFind_upsert_self (k : α) [DecidableEq α] (d0 : β) (f : β → β) :
    ∀ (l : List (α × β)),
    alistFind k (alistUpsert k d0 f l) = some (f ((alistFind k l).getD d0)) := by
  intro l
  induction l with
  | nil => simp [alistUpsert, alistFind, List.find?]
  | cons p rest ih =>
      by_cases hk : p.1 = k
      · simp [alistUpsert, if_pos hk, alistFind, List.find?, hk]
      · simp only [alistUpsert, if_neg hk]
        unfold alistFind at ih ⊢
        simp only [List.find?]
        have : (decide (p.1 = k)) = false := by simp [hk]
        rw [this]
        exact ih

/-- Helper: looking up another key after an upsert. -/
theorem alistFind_upsert_ne (k k' : α) [DecidableEq α] (d0 : β) (f : β → β)
    (hne : k' ≠ k) : ∀ (l : List (α × β)),
    alistFind k' (alistUpsert k d0 f l) = alistFind k' l := by
  intro l
  induction l with
  | nil =>
      simp only [alistUpsert]
      unfold alistFind
      simp [List.find?, Ne.symm hne]
  | cons p rest ih =>
      by_cases hk : p.1 = k
      · subst hk
        simp only [alistUpsert, if_pos rfl]
        unfold alistFind
        simp only [List.find?]
        have : (decide (p.1 = k')) = false := by simp [Ne.symm hne]
        rw [this]
      · simp only [alistUpsert, if_neg hk]
        unfold alistFind at ih ⊢
        simp only [List.find?]
        cases hd : (decide (p.1 = k')) with
        | true => rfl
        | false => exact ih

/-- Helper: filtering distributes over `flatMap`. -/
theorem filter_flatMap (l : List α) (g : α → List β) (p : β → Bool) :
    (l.flatMap g).filter p = l.flatMap (fun x => (g x).filter p) := by
  induction l with
  | nil => rfl
  | cons x xs ih => simp [List.flatMap_cons, List.filter_append, ih]

/-- Helper: mapping distributes over `flatMap`. -/
theorem map_flatMap (l : List α) (g : α → List β) (f : β → γ) :
    (l.flatMap g).map f = l.flatMap (fun x => (g x).map f) := by
  induction l with
  | nil => rfl
  | cons x xs ih => simp [List.flatMap_cons, ih]

/-- Helper: `collectVals` distributes over `flatMap`. -/
theorem collectVals_flatMap (key : String × String) (l : List α)
    (g : α → List (String × String × String × Option String)) :
    collectVals key (l.flatMap g) = l.flatMap (fun x => collectVals key (g x)) := by
  unfold collectVals
  rw [filter_flatMap, map_flatMap]

/-- Helper: the observation set of a replayed sequence of `add_state`
calls collects exactly the values addressed to the key, folded with set
insertion on top of the original entry. -/
theorem addAll_states_lookup :
    ∀ (ops : List (String × String × String × Option String)) (d : OldPhyloData)
      (key : String × String),
    alistFind key
      (ops.foldl (fun d o => d.addState o.1 o.2.1 o.2.2.1 o.2.2.2) d).states =
    (match alistFind key d.states with
     | some cur => some ((collectVals key ops).foldl pyInsert cur)
     | none =>
        if collectVals key ops = [] then none
        else some ((collectVals key ops).foldl pyInsert [])) := by
  intro ops
  induction ops with
  | nil =>
      intro d key
      simp only [List.foldl_nil, collectVals, List.filter_nil, List.map_nil,
        List.foldl_nil, if_pos rfl]
      cases alistFind key d.states <;> rfl
  | cons o rest ih =>
      intro d key
      rw [List.foldl_cons, ih]
      by_cases hk : (o.1, o.2.1) = key
      · have hcv : collectVals key (o :: rest) = o.2.2.1 :: collectVals key rest := by
          unfold collectVals
          rw [List.filter_cons_of_pos (by simp [hk]), List.map_cons]
        have hfind : alistFind key (d.addState o.1 o.2.1 o.2.2.1 o.2.2.2).states =
            some (pyInsert ((alistFind key d.states).getD []) o.2.2.1) := by
          show alistFind key (alistUpsert (o.1, o.2.1) [] _ d.states) = _
          rw [hk]
          exact alistFind_upsert_self key [] _ d.states
        rw [hfind, hcv]
        cases hcur : alistFind key d.states with
        | some cur => simp [List.foldl_cons, Option.getD]
        | none =>
            simp only [Option.getD, List.foldl_cons]
            rw [if_neg (by simp)]
      · have hcv : collectVals key (o :: rest) = collectVals key rest := by
          unfold collectVals
          rw [List.filter_cons_of_neg (by simp [hk])]
        have hfind : alistFind key (d.addState o.1 o.2.1 o.2.2.1 o.2.2.2).states =
            alistFind key d.states := by
          show alistFind key (alistUpsert (o.1, o.2.1) [] _ d.states) = _
          exact alistFind_upsert_ne (o.1, o.2.1) key [] _ (Ne.symm hk) d.states
        rw [hfind, hcv]

/-- Helper: the binarized observation map, characterised through
`collectVals` over the generated `add_state` calls. -/
theorem binarize_states_lookup (d : OldPhyloData) (key : String × String) :
    alistFind key (binarize d).states =
      (if collectVals key (binarizedOps d) = [] then none
       else some ((collectVals key (binarizedOps d)).foldl pyInsert [])) := by
  unfold binarize
  exact addAll_states_lookup (binarizedOps d) OldPhyloData.empty key

/-- Helper: `collectVals` over a cons. -/
theorem collectVals_cons (key : String × String)
    (a : String × String × String × Option String)
    (l : List (String × String × String × Option String)) :
    collectVals key (a :: l) =
      (if (a.1, a.2.1) = key then [a.2.2.1] else []) ++ collectVals key l := by
  unfold collectVals
  by_cases hk : (a.1, a.2.1) = key
  · rw [List.filter_cons_of_pos (by simp [hk]), if_pos hk, List.map_cons]
    rfl
  · rw [List.filter_cons_of_neg (by simp [hk]), if_neg hk]
    rfl

/-- Helper: upserting an absent key appends it. -/
theorem alistUpsert_absent (k : α) [DecidableEq α] (d0 : β) (f : β → β) :
    ∀ (l : List (α × β)), k ∉ l.map Prod.fst →
    alistUpsert k d0 f l = l ++ [(k, f d0)] := by
  intro l
  induction l with
  | nil => intro _; rfl
  | cons p rest ih =>
      intro hk
      have hpk : p.1 ≠ k := by
        intro he
        exact hk (by simp [he])
      simp only [alistUpsert, if_neg hpk, List.cons_append]
      rw [ih (fun hm => hk (by simp [hm]))]

/-- Helper: the keys of an upsert. -/
theorem alistUpsert_map_fst (k : α) [DecidableEq α] (d0 : β) (f : β → β) :
    ∀ (l : List (α × β)),
    (alistUpsert k d0 f l).map Prod.fst =
      (if k ∈ l.map Prod.fst then l.map Prod.fst else l.map Prod.fst ++ [k]) := by
  intro l
  induction l with
  | nil => simp [alistUpsert]
  | cons p rest ih =>
      by_cases hpk : p.1 = k
      · simp [alistUpsert, if_pos hpk, hpk]
      · simp only [alistUpsert, if_neg hpk, List.map_cons, ih]
        by_cases hmem : k ∈ rest.map Prod.fst
        · rw [if_pos hmem, if_pos (by simp [hmem])]
        · rw [if_neg hmem, if_neg (by simp [hmem, Ne.symm hpk])]
          simp

/-- Helper: an upsert preserves duplicate-free keys. -/
theorem alistUpsert_keys_nodup (k : α) [DecidableEq α] (d0 : β) (f : β → β)
    (l : List (α × β)) (h : (l.map Prod.fst).Nodup) :
    ((alistUpsert k d0 f l).map Prod.fst).Nodup := by
  rw [alistUpsert_map_fst]
  by_cases hmem : k ∈ l.map Prod.fst
  · rw [if_pos hmem]; exact h
  · rw [if_neg hmem]
    simp [List.nodup_append, h, hmem]

/-- Helper: in a duplicate-free association list, membership determines
the value. -/
theorem nodup_keys_value_eq (l : List (α × β)) (h : (l.map Prod.fst).Nodup)
    (k : α) (a b : β) (ha : (k, a) ∈ l) (hb : (k, b) ∈ l) : a = b := by
  induction l with
  | nil => cases ha
  | cons p rest ih =>
      rcases List.mem_cons.mp ha with h1 | h1 <;> rcases List.mem_cons.mp hb with h2 | h2
      · have h12 : (k, a) = (k, b) := h1.trans h2.symm
        injection h12 with h12a h12b
      · exfalso
        have hk : p.1 = k := by rw [← h1]
        have : k ∈ rest.map Prod.fst := by
          exact List.mem_map.mpr ⟨(k, b), h2, rfl⟩
        rw [List.map_cons, List.nodup_cons] at h
        exact h.1 (hk ▸ this)
      · exfalso
        have hk : p.1 = k := by rw [← h2]
        have : k ∈ rest.map Prod.fst := List.mem_map.mpr ⟨(k, a), h1, rfl⟩
        rw [List.map_cons, List.nodup_cons] at h
        exact h.1 (hk ▸ this)
      · rw [List.map_cons, List.nodup_cons] at h
        exact ih h.2 h1 h2

/-- Helper: a duplicate-free association list finds exactly its
members. -/
theorem alistFind_of_mem_nodup (l : List (α × β)) [DecidableEq α]
    (h : (l.map Prod.fst).Nodup) (k : α) (v : β) (hm : (k, v) ∈ l) :
    alistFind k l = some v := by
  induction l with
  | nil => cases hm
  | cons p rest ih =>
      rcases List.mem_cons.mp hm with h1 | h1
      · subst h1
        unfold alistFind
        simp [List.find?]
      · rw [List.map_cons, List.nodup_cons] at h
        have hpk : p.1 ≠ k := by
          intro he
          exact h.1 (he ▸ List.mem_map.mpr ⟨(k, v), h1, rfl⟩)
        unfold alistFind at ih ⊢
        simp only [List.find?]
        have hd : (decide (p.1 = k)) = false := by simp [hpk]
        rw [hd]
        exact ih h.2 h1

/-- Helper: a fold of replacing upserts over fresh, duplicate-free keys
appends the mapped entries in order. -/
theorem upsertFold_fresh (kf : γ → α) [DecidableEq α] (vf : γ → β) (d0 : β) :
    ∀ (ps : List γ) (acc : List (α × β)),
    (ps.map kf).Nodup →
    (∀ x ∈ ps, kf x ∉ acc.map Prod.fst) →
    ps.foldl (fun acc x => alistUpsert (kf x) d0 (fun _ => vf x) acc) acc =
      acc ++ ps.map (fun x => (kf x, vf x)) := by
  intro ps
  induction ps with
  | nil => intro acc _ _; simp
  | cons x rest ih =>
      intro acc hnd hfresh
      rw [List.foldl_cons, alistUpsert_absent (kf x) d0 _ acc (hfresh x (by simp))]
      rw [List.map_cons, List.nodup_cons] at hnd
      rw [ih (acc ++ [(kf x, vf x)]) hnd.2 ?_]
      · simp
      · intro y hy
        rw [List.map_append]
        intro hmem
        rcases List.mem_append.mp hmem with h1 | h1
        · exact hfresh y (List.mem_cons_of_mem _ hy) h1
        · simp only [List.map_cons, List.map_nil, List.mem_singleton] at h1
          exact hnd.1 (h1 ▸ List.mem_map.mpr ⟨y, hy, rfl⟩)

/-- Helper: `insertCountDesc` permutes a cons. -/
theorem insertCountDesc_perm (x : String × Nat) :
    ∀ (l : List (String × Nat)), List.Perm (insertCountDesc x l) (x :: l) := by
  intro l
  induction l with
  | nil => simp [insertCountDesc]
  | cons y rest ih =>
      simp only [insertCountDesc]
      by_cases hc : y.2 > x.2
      · rw [if_pos hc]
        exact List.Perm.trans (ih.cons y) (List.Perm.swap x y rest)
      · rw [if_neg hc]

/-- Helper: `most_common` permutes the counter. -/
theorem mostCommon_perm : ∀ (c : List (String × Nat)), List.Perm (mostCommon c) c := by
  intro c
  induction c with
  | nil => exact List.Perm.refl []
  | cons x rest ih =>
      show List.Perm (insertCountDesc x (mostCommon rest)) (x :: rest)
      exact List.Perm.trans (insertCountDesc_perm x (mostCommon rest)) (ih.cons x)

/-- Helper: the keys of the `charstates` dict are duplicate-free. -/
theorem charstates_keys_nodup (d : OldPhyloData) :
    ((d.charstates).map Prod.fst).Nodup := by
  unfold OldPhyloData.charstates
  rw [List.map_map]
  have hfst : (fun (p : String × List String) => p.1) ∘
      (fun (p : String × List (String × Nat)) =>
        (p.1, (mostCommon p.2).map Prod.fst)) = Prod.fst := rfl
  show (List.map _ _).Nodup
  rw [show (Prod.fst ∘ fun (p : String × List (String × Nat)) =>
    (p.1, (mostCommon p.2).map Prod.fst)) = Prod.fst from rfl]
  refine foldl_preserves
    (fun (acc : List (String × List (String × Nat))) => (acc.map Prod.fst).Nodup)
    d.states [] (by simp) ?_
  intro b a _ hb
  exact alistUpsert_keys_nodup _ _ _ _ hb

/-- Helper: the per-entry counters of `charstates` have duplicate-free
keys. -/
theorem charCounter_values_keys_nodup (d : OldPhyloData) :
    ∀ e ∈ d.states.foldl
      (fun acc p =>
        alistUpsert p.1.2 [] (fun cnt => counterUpdate cnt (p.2.filter (fun s => s ≠ "?"))) acc)
      ([] : List (String × List (String × Nat))),
    (e.2.map Prod.fst).Nodup := by
  refine foldl_preserves
    (fun (acc : List (String × List (String × Nat))) =>
      ∀ e ∈ acc, (e.2.map Prod.fst).Nodup)
    d.states [] (by intro e he; cases he) ?_
  intro b a _ hb
  refine alistUpsert_values (fun (cnt : List (String × Nat)) => (cnt.map Prod.fst).Nodup)
    ?_ ?_ b hb
  · intro v hv
    refine foldl_preserves (fun (cnt : List (String × Nat)) => (cnt.map Prod.fst).Nodup)
      _ v hv ?_
    intro cnt x _ hcnt
    exact alistUpsert_keys_nodup _ _ _ _ hcnt
  · refine foldl_preserves (fun (cnt : List (String × Nat)) => (cnt.map Prod.fst).Nodup)
      _ [] (by simp) ?_
    intro cnt x _ hcnt
    exact alistUpsert_keys_nodup _ _ _ _ hcnt

/-- Helper: every state list of `charstates` is duplicate-free. -/
theorem charstates_values_nodup (d : OldPhyloData) :
    ∀ e ∈ d.charstates, e.2.Nodup := by
  intro e he
  unfold OldPhyloData.charstates at he
  rcases List.mem_map.mp he with ⟨p, hp, rfl⟩
  have hnd := charCounter_values_keys_nodup d p hp
  have hperm : List.Perm ((mostCommon p.2).map Prod.fst) (p.2.map Prod.fst) :=
    (mostCommon_perm p.2).map Prod.fst
  exact hperm.nodup_iff.mpr hnd

/-- Helper: the cartesian taxon-times-character pair list is
duplicate-free in its `(taxon, character)` keys. -/
theorem taxaProd_keys_nodup (ts : List String) (cs : List (String × List String))
    (hts : ts.Nodup) (hcs : (cs.map Prod.fst).Nodup) :
    ((ts.flatMap (fun t => cs.map (fun p => (t, p)))).map
      (fun x => (x.1, x.2.1))).Nodup := by
  induction ts with
  | nil => simp
  | cons t rest ih =>
      rw [List.nodup_cons] at hts
      rw [List.flatMap_cons, List.map_append]
      refine List.Nodup.append ?_ (ih hts.2) ?_
      · rw [List.map_map]
        have heq : ((fun (x : String × String × List String) => (x.1, x.2.1)) ∘
            (fun p => (t, p))) = ((fun k => (t, k)) ∘ Prod.fst) := rfl
        rw [heq, ← List.map_map]
        exact hcs.map (fun a b hab => by injection hab with h1 h2)
      · intro x hx hy
        rcases List.mem_map.mp hx with ⟨q, hq, rfl⟩
        rcases List.mem_map.mp hq with ⟨p, hp, rfl⟩
        rcases List.mem_map.mp hy with ⟨q', hq', he⟩
        rcases List.mem_flatMap.mp hq' with ⟨t', ht', hq''⟩
        rcases List.mem_map.mp hq'' with ⟨p', hp', rfl⟩
        injection he with he1 he2
        have ht1 : t' = t := he1
        exact hts.1 (ht1 ▸ ht')

/-- Helper: `binRow` is a pointwise map over the state list. -/
theorem binRow_eq_map (obs : Option (List String)) (sts : List String) :
    binRow obs sts = sts.map (gFun obs) := by
  cases obs with
  | none => rfl
  | some o =>
      show (if o = [] then sts.map (fun _ => BinaryObs.GAP)
        else if pyTupleEqStr o "?" then sts.map (fun _ => BinaryObs.MISSING)
        else sts.map (fun s => if s ∈ o then BinaryObs.TRUE else BinaryObs.FALSE)) = _
      by_cases h1 : o = []
      · rw [if_pos h1]
        have hf : (fun (_ : String) => BinaryObs.GAP) = gFun (some o) :=
          funext (fun s => by simp [gFun, h1])
        rw [hf]
      · rw [if_neg h1]
        have h2 : ¬ (pyTupleEqStr o "?" = true) := by simp [pyTupleEqStr]
        rw [if_neg h2]
        have hf : (fun (s : String) => if s ∈ o then BinaryObs.TRUE else BinaryObs.FALSE) =
            gFun (some o) :=
          funext (fun s => by simp [gFun, h1])
        rw [hf]

/-- Helper: zipping a mapped list with its source pairs pointwise. -/
theorem zip_map_self (g : α → β) (l : List α) :
    (l.map g).zip l = l.map (fun x => (g x, x)) := by
  induction l with
  | nil => rfl
  | cons a rest ih => simp [ih]

/-- Helper: `flatMap` after `map`. -/
theorem flatMap_map_list (l : List α) (f : α → β) (g : β → List γ) :
    (l.map f).flatMap g = l.flatMap (fun x => g (f x)) := by
  induction l with
  | nil => rfl
  | cons a rest ih => simp [ih]

/-- Helper: a `flatMap` of all-empty contributions is empty. -/
theorem flatMap_nil_of_forall (h : α → List β) :
    ∀ (l : List α), (∀ y ∈ l, h y = []) → l.flatMap h = [] := by
  intro l
  induction l with
  | nil => intro _; rfl
  | cons a rest ih =>
      intro hz
      rw [List.flatMap_cons, hz a (by simp), ih (fun y hy => hz y (by simp [hy]))]
      rfl

/-- Helper: a `flatMap` whose only nonempty contribution comes from one
element of a duplicate-free list equals that contribution. -/
theorem flatMap_single_support (l : List α) (hnd : l.Nodup) (x : α) (hx : x ∈ l)
    (h : α → List β) (hz : ∀ y ∈ l, y ≠ x → h y = []) : l.flatMap h = h x := by
  induction l with
  | nil => cases hx
  | cons a rest ih =>
      rw [List.nodup_cons] at hnd
      rcases List.mem_cons.mp hx with h1 | h1
      · subst h1
        rw [List.flatMap_cons]
        rw [flatMap_nil_of_forall h rest (fun y hy => hz y (by simp [hy])
          (fun he => hnd.1 (he ▸ hy)))]
        simp
      · have hax : a ≠ x := fun he => hnd.1 (he ▸ h1)
        rw [List.flatMap_cons, hz a (by simp) hax]
        rw [List.nil_append]
        exact ih hnd.2 h1 (fun y hy hyx => hz y (by simp [hy]) hyx)

/-- Helper: folding set insertion over a nonempty all-`"0"` list gives
the singleton `{"0"}`. -/
theorem foldl_pyInsert_zeros_aux :
    ∀ (l : List String), (∀ v ∈ l, v = "0") → l.foldl pyInsert ["0"] = ["0"] := by
  intro l
  induction l with
  | nil => intro _; rfl
  | cons v rest ih =>
      intro hall
      have hv : v = "0" := hall v (by simp)
      subst hv
      rw [List.foldl_cons]
      have hstep : pyInsert ["0"] "0" = ["0"] := by simp [pyInsert]
      rw [hstep]
      exact ih (fun w hw => hall w (by simp [hw]))

/-- Helper: folding set insertion over a nonempty all-`"0"` list gives
the singleton `{"0"}`. -/
theorem foldl_pyInsert_zeros (l : List String) (hne : l ≠ [])
    (hall : ∀ v ∈ l, v = "0") : l.foldl pyInsert [] = ["0"] := by
  cases l with
  | nil => cases hne rfl
  | cons v rest =>
      have hv : v = "0" := hall v (by simp)
      subst hv
      rw [List.foldl_cons]
      have hstep : pyInsert [] "0" = ["0"] := by simp [pyInsert]
      rw [hstep]
      exact foldl_pyInsert_zeros_aux rest (fun w hw => hall w (by simp [hw]))

/-- Helper: the `binary_states` dict is the keyed image of the
taxa-times-characters product when the taxa set is duplicate-free. -/
theorem binaryStates_eq (d : OldPhyloData) (hts : d.taxa.Nodup) :
    binaryStates d = (d.taxa.flatMap (fun t => d.charstates.map (fun p => (t, p)))).map
      (fun x => ((x.1, x.2.1), binRow (alistFind (x.1, x.2.1) d.states) x.2.2)) := by
  show (d.taxa.flatMap (fun t => d.charstates.map (fun p => (t, p)))).foldl
      (fun acc q => alistUpsert (q.1, q.2.1) []
        (fun _ => binRow (alistFind (q.1, q.2.1) d.states) q.2.2) acc) [] = _
  rw [upsertFold_fresh (fun (x : String × String × List String) => (x.1, x.2.1))
    (fun x => binRow (alistFind (x.1, x.2.1) d.states) x.2.2) []
    (d.taxa.flatMap (fun t => d.charstates.map (fun p => (t, p)))) []
    (taxaProd_keys_nodup d.taxa d.charstates hts (charstates_keys_nodup d))
    (by intro x _ hx; cases hx)]
  rfl

/-- Helper: `flatMap` congruence over members. -/
theorem flatMap_congr_mem (l : List α) (f g : α → List β)
    (h : ∀ x ∈ l, f x = g x) : l.flatMap f = l.flatMap g := by
  induction l with
  | nil => rfl
  | cons a rest ih =>
      rw [List.flatMap_cons, List.flatMap_cons, h a (by simp),
        ih (fun x hx => h x (by simp [hx]))]

/-- Helper: a character's ascertainment source is used. -/
theorem mem_usedSrcs_asc (d : OldPhyloData) (c : String) (sts : List String)
    (hc : (c, sts) ∈ d.charstates) : ColSrc.asc c ∈ usedSrcs d := by
  unfold usedSrcs
  exact List.mem_flatMap.mpr ⟨(c, sts), hc, by simp⟩

/-- Helper: a character's per-state source is used. -/
theorem mem_usedSrcs_state (d : OldPhyloData) (c : String) (sts : List String)
    (s : String) (hc : (c, sts) ∈ d.charstates) (hs : s ∈ sts) :
    ColSrc.state c s ∈ usedSrcs d := by
  unfold usedSrcs
  refine List.mem_flatMap.mpr ⟨(c, sts), hc, ?_⟩
  simp only [List.mem_cons]
  exact Or.inr (List.mem_map.mpr ⟨s, hs, rfl⟩)

/-- Helper: the values `binarize` sends to one observation key, written
as a sum over the taxa-times-characters product and each character's
state slots. -/
theorem binarizedOps_collect (d : OldPhyloData) (HtND : d.taxa.Nodup)
    (key : String × String) :
    collectVals key (binarizedOps d) =
      (d.taxa.flatMap (fun t => d.charstates.map (fun p => (t, p)))).flatMap
        (fun x => x.2.2.flatMap (fun s =>
          collectVals key (opsFor x.1 x.2.1 (gFun (alistFind (x.1, x.2.1) d.states) s) s))) := by
  have h0 : binarizedOps d = (binaryStates d).flatMap (fun p =>
      (p.2.zip ((alistFind p.1.2 d.charstates).getD [])).flatMap (fun q =>
        opsFor p.1.1 p.1.2 q.1 q.2)) := rfl
  rw [h0, binaryStates_eq d HtND, flatMap_map_list, collectVals_flatMap]
  apply flatMap_congr_mem
  intro x hx
  have hx2 : x.2 ∈ d.charstates := by
    rcases List.mem_flatMap.mp hx with ⟨t', _, hq⟩
    rcases List.mem_map.mp hq with ⟨p, hp, rfl⟩
    exact hp
  have hfindc : alistFind x.2.1 d.charstates = some x.2.2 :=
    alistFind_of_mem_nodup d.charstates (charstates_keys_nodup d) x.2.1 x.2.2 hx2
  show collectVals key
      (((binRow (alistFind (x.1, x.2.1) d.states) x.2.2).zip
        ((alistFind x.2.1 d.charstates).getD [])).flatMap
      (fun q => opsFor x.1 x.2.1 q.1 q.2)) =
    x.2.2.flatMap (fun s =>
      collectVals key (opsFor x.1 x.2.1 (gFun (alistFind (x.1, x.2.1) d.states) s) s))
  rw [hfindc, Option.getD_some, binRow_eq_map, zip_map_self, flatMap_map_list,
    collectVals_flatMap]

/-- Helper: the values one binarization slot contributes to a key. -/
theorem collect_opsFor (K : String × String) (t c : String) (ob : BinaryObs)
    (sl : String) :
    collectVals K (opsFor t c ob sl) =
      (if (t, c ++ "_ASCERTAINMENT") = K then ["0"] else []) ++
      (if ob ≠ BinaryObs.GAP then
        (if (t, c ++ "_" ++ sl) = K then [binaryOpsMap ob] else [])
      else []) := by
  unfold opsFor
  rw [collectVals_cons]
  by_cases hob : ob ≠ BinaryObs.GAP
  · rw [if_pos hob, if_pos hob, collectVals_cons]
    show _ ++ (_ ++ collectVals K []) = _
    rw [show collectVals K [] = [] from rfl, List.append_nil]
  · rw [if_neg hob, if_neg hob]
    rw [show collectVals K [] = [] from rfl, List.append_nil]

/-- Helper: a `flatMap` with a constant singleton contribution over each
element. -/
theorem flatMap_const_singleton (l : List α) (v : β) :
    l.flatMap (fun _ => [v]) = l.map (fun _ => v) := by
  induction l with
  | nil => rfl
  | cons a rest ih => simp [ih]

/-- Helper: whenever a character has at least one non-missing state and
the derived binary column names do not collide, the runnable `binarize`
gives every taxon exactly the observation set `{"0"}` on the character's
ascertainment column. -/
theorem ascertainment_column_lookup (d : OldPhyloData)
    (HtND : d.taxa.Nodup)
    (Hinj : ∀ x ∈ usedSrcs d, ∀ y ∈ usedSrcs d, colName x = colName y → x = y)
    (t c : String) (sts : List String)
    (ht : t ∈ d.taxa) (hc : (c, sts) ∈ d.charstates) (hne : sts ≠ []) :
    alistFind (t, c ++ "_ASCERTAINMENT") (binarize d).states = some ["0"] := by
  rw [binarize_states_lookup, binarizedOps_collect d HtND]
  have prodnd : (d.taxa.flatMap (fun t => d.charstates.map (fun p => (t, p)))).Nodup :=
    (taxaProd_keys_nodup d.taxa d.charstates HtND (charstates_keys_nodup d)).of_map
  have hx0 : (t, (c, sts)) ∈ d.taxa.flatMap (fun t => d.charstates.map (fun p => (t, p))) :=
    List.mem_flatMap.mpr ⟨t, ht, List.mem_map.mpr ⟨(c, sts), hc, rfl⟩⟩
  rw [flatMap_single_support _ prodnd (t, (c, sts)) hx0 _ ?_]
  · have hterm : ∀ s ∈ sts,
        collectVals (t, c ++ "_ASCERTAINMENT")
          (opsFor t c (gFun (alistFind (t, c) d.states) s) s) = ["0"] := by
      intro s hs
      rw [collect_opsFor, if_pos rfl]
      have hstne : (t, c ++ "_" ++ s) ≠ (t, c ++ "_ASCERTAINMENT") := by
        intro he
        injection he with he1 he2
        have := Hinj (ColSrc.state c s) (mem_usedSrcs_state d c sts s hc hs)
          (ColSrc.asc c) (mem_usedSrcs_asc d c sts hc) he2
        cases this
      by_cases hob : gFun (alistFind (t, c) d.states) s ≠ BinaryObs.GAP
      · rw [if_pos hob, if_neg hstne, List.append_nil]
      · rw [if_neg hob, List.append_nil]
    have hflat : sts.flatMap (fun s =>
        collectVals (t, c ++ "_ASCERTAINMENT")
          (opsFor t c (gFun (alistFind (t, c) d.states) s) s)) =
        sts.map (fun _ => "0") := by
      rw [flatMap_congr_mem sts _ (fun _ => ["0"]) hterm]
      exact flatMap_const_singleton sts "0"
    show (if _ = _ then _ else _) = _
    rw [hflat]
    have hmapne : sts.map (fun (_ : String) => "0") ≠ [] := by
      intro he
      exact hne (List.map_eq_nil_iff.mp he)
    rw [if_neg hmapne]
    rw [foldl_pyInsert_zeros _ hmapne ?_]
    intro v hv
    rcases List.mem_map.mp hv with ⟨_, _, rfl⟩
    rfl
  · intro y hy hyne
    rcases List.mem_flatMap.mp hy with ⟨t', ht', hq⟩
    rcases List.mem_map.mp hq with ⟨p, hp, rfl⟩
    apply flatMap_nil_of_forall
    intro s' hs'
    rw [collect_opsFor]
    have hascne : (t', p.1 ++ "_ASCERTAINMENT") ≠ (t, c ++ "_ASCERTAINMENT") := by
      intro he
      injection he with he1 he2
      have hcc := Hinj (ColSrc.asc p.1) (mem_usedSrcs_asc d p.1 p.2 (by simpa using hp))
        (ColSrc.asc c) (mem_usedSrcs_asc d c sts hc) he2
      injection hcc with hc1
      apply hyne
      subst he1 hc1
      have hval : p.2 = sts := nodup_keys_value_eq d.charstates (charstates_keys_nodup d)
        p.1 p.2 sts (by simpa using hp) hc
      exact Prod.ext rfl (Prod.ext rfl hval)
    have hstne : (t', p.1 ++ "_" ++ s') ≠ (t, c ++ "_ASCERTAINMENT") := by
      intro he
      injection he with he1 he2
      have := Hinj (ColSrc.state p.1 s')
        (mem_usedSrcs_state d p.1 p.2 s' (by simpa using hp) hs')
        (ColSrc.asc c) (mem_usedSrcs_asc d c sts hc) he2
      cases this
    rw [if_neg hascne]
    by_cases hob : gFun (alistFind (t', p.1) d.states) s' ≠ BinaryObs.GAP
    · rw [if_pos hob, if_neg hstne]
      rfl
    · rw [if_neg hob]
      rfl

/-- Helper: whenever some taxon and a character with at least one state
exist, the output loop of `phylodata.py`'s module-level `binarize` has a
slot, so its first `bin_phyd.add_state` call raises `AttributeError`. -/
theorem binarizeModule_error (d : OldPhyloData) (t c s : String) (sts : List String)
    (ht : t ∈ d.taxa) (hc : (c, sts) ∈ d.charstates) (hs : s ∈ sts) :
    binarizeModule d =
      .error "AttributeError: 'PhyloData' object has no attribute 'add_state'" := by
  have hmem : (t, c, s) ∈ moduleBinSlots d :=
    List.mem_flatMap.mpr ⟨t, ht,
      List.mem_flatMap.mpr ⟨(c, sts), hc, List.mem_map.mpr ⟨s, hs, rfl⟩⟩⟩
  unfold binarizeModule
  cases hsl : moduleBinSlots d with
  | nil =>
      rw [hsl] at hmem
      cases hmem
  | cons a rest => rfl

/-- Claim C3 (amended): whenever a character has at least one non-missing
state and the derived binary column names do not collide, the runnable
binarize (`internal.py` `PhyloData.binarize`) emits, for every taxon,
exactly the observation set `{"0"}` on the character's ascertainment
column — one observation, however many states the character has.
Characters with an empty non-missing state set emit nothing at all (see
the counterexample), and `phylodata.py`'s module-level `binarize` raises
`AttributeError` before emitting anything for every such dataset. -/
theorem C3_single_ascertainment_observation (d : OldPhyloData)
    (HtND : d.taxa.Nodup)
    (Hinj : ∀ x ∈ usedSrcs d, ∀ y ∈ usedSrcs d, colName x = colName y → x = y)
    (t c : String) (sts : List String)
    (ht : t ∈ d.taxa) (hc : (c, sts) ∈ d.charstates) (hne : sts ≠ []) :
    alistFind (t, c ++ "_ASCERTAINMENT") (binarize d).states = some ["0"] ∧
    binarizeModule d =
      .error "AttributeError: 'PhyloData' object has no attribute 'add_state'" := by
  refine ⟨ascertainment_column_lookup d HtND Hinj t c sts ht hc hne, ?_⟩
  cases sts with
  | nil => exact absurd rfl hne
  | cons s0 rest =>
      exact binarizeModule_error d t c s0 (s0 :: rest) ht hc (List.mem_cons_self s0 rest)

/-- Witness for C3: the amended theorem applies to the concrete dataset
`exBin` at taxon `B` and character `c`, every hypothesis discharged by
evaluation. -/
theorem C3_witness :
    exBin.taxa.Nodup ∧
    (∀ x ∈ usedSrcs exBin, ∀ y ∈ usedSrcs exBin, colName x = colName y → x = y) ∧
    "B" ∈ exBin.taxa ∧ ("c", ["x", "y"]) ∈ exBin.charstates ∧
    (["x", "y"] : List String) ≠ [] ∧
    (alistFind ("B", "c" ++ "_ASCERTAINMENT") (binarize exBin).states = some ["0"] ∧
     binarizeModule exBin =
       .error "AttributeError: 'PhyloData' object has no attribute 'add_state'") :=
  ⟨by decide, by decide, by decide, by decide, by decide,
   C3_single_ascertainment_observation exBin (by decide) (by decide) "B" "c" ["x", "y"]
     (by decide) (by decide) (by decide)⟩

/-- Helper: when the derived binary column names do not collide, the
runnable `binarize` gives the per-state binary column
`<character>_<state>` exactly the singleton observation determined by the
taxon's observation set for the source character. -/
theorem per_state_column_lookup (d : OldPhyloData)
    (HtND : d.taxa.Nodup)
    (Hinj : ∀ x ∈ usedSrcs d, ∀ y ∈ usedSrcs d, colName x = colName y → x = y)
    (t c s : String) (sts : List String)
    (ht : t ∈ d.taxa) (hc : (c, sts) ∈ d.charstates) (hs : s ∈ sts) :
    alistFind (t, c ++ "_" ++ s) (binarize d).states =
      (if gFun (alistFind (t, c) d.states) s = BinaryObs.GAP then none
       else some [binaryOpsMap (gFun (alistFind (t, c) d.states) s)]) := by
  rw [binarize_states_lookup, binarizedOps_collect d HtND]
  have prodnd : (d.taxa.flatMap (fun t => d.charstates.map (fun p => (t, p)))).Nodup :=
    (taxaProd_keys_nodup d.taxa d.charstates HtND (charstates_keys_nodup d)).of_map
  have hx0 : (t, (c, sts)) ∈ d.taxa.flatMap (fun t => d.charstates.map (fun p => (t, p))) :=
    List.mem_flatMap.mpr ⟨t, ht, List.mem_map.mpr ⟨(c, sts), hc, rfl⟩⟩
  have hascne : (t, c ++ "_ASCERTAINMENT") ≠ (t, c ++ "_" ++ s) := by
    intro he
    injection he with he1 he2
    cases Hinj (ColSrc.asc c) (mem_usedSrcs_asc d c sts hc)
      (ColSrc.state c s) (mem_usedSrcs_state d c sts s hc hs) he2
  rw [flatMap_single_support _ prodnd (t, (c, sts)) hx0 _ ?_]
  · have hstnd : sts.Nodup := charstates_values_nodup d (c, sts) hc
    have hinner : sts.flatMap (fun q =>
        collectVals (t, c ++ "_" ++ s)
          (opsFor t c (gFun (alistFind (t, c) d.states) q) q)) =
        collectVals (t, c ++ "_" ++ s)
          (opsFor t c (gFun (alistFind (t, c) d.states) s) s) := by
      refine flatMap_single_support sts hstnd s hs _ ?_
      intro q hq hqs
      rw [collect_opsFor]
      have hqne : (t, c ++ "_" ++ q) ≠ (t, c ++ "_" ++ s) := by
        intro he
        injection he with he1 he2
        have := Hinj (ColSrc.state c q) (mem_usedSrcs_state d c sts q hc hq)
          (ColSrc.state c s) (mem_usedSrcs_state d c sts s hc hs) he2
        injection this with h1 h2
        exact hqs h2
      rw [if_neg hascne]
      by_cases hob : gFun (alistFind (t, c) d.states) q ≠ BinaryObs.GAP
      · rw [if_pos hob, if_neg hqne]
        rfl
      · rw [if_neg hob]
        rfl
    show (if _ = _ then _ else _) = _
    rw [hinner, collect_opsFor, if_neg hascne, List.nil_append]
    by_cases hob : gFun (alistFind (t, c) d.states) s = BinaryObs.GAP
    · have hobne : ¬ (gFun (alistFind (t, c) d.states) s ≠ BinaryObs.GAP) :=
        fun h => h hob
      rw [if_neg hobne, if_pos hob]
      rfl
    · rw [if_pos hob, if_neg hob]
      have hkey : ((t, c ++ "_" ++ s) : String × String) = (t, c ++ "_" ++ s) := rfl
      rw [if_pos hkey]
      have hne2 : [binaryOpsMap (gFun (alistFind (t, c) d.states) s)] ≠ ([] : List String) := by
        simp
      rw [if_neg hne2]
      rfl
  · intro y hy hyne
    rcases List.mem_flatMap.mp hy with ⟨t', ht', hq⟩
    rcases List.mem_map.mp hq with ⟨p, hp, rfl⟩
    apply flatMap_nil_of_forall
    intro s' hs'
    rw [collect_opsFor]
    have hascne2 : (t', p.1 ++ "_ASCERTAINMENT") ≠ (t, c ++ "_" ++ s) := by
      intro he
      injection he with he1 he2
      cases Hinj (ColSrc.asc p.1) (mem_usedSrcs_asc d p.1 p.2 (by simpa using hp))
        (ColSrc.state c s) (mem_usedSrcs_state d c sts s hc hs) he2
    have hstne2 : (t', p.1 ++ "_" ++ s') ≠ (t, c ++ "_" ++ s) := by
      intro he
      injection he with he1 he2
      have hcc := Hinj (ColSrc.state p.1 s')
        (mem_usedSrcs_state d p.1 p.2 s' (by simpa using hp) hs')
        (ColSrc.state c s) (mem_usedSrcs_state d c sts s hc hs) he2
      injection hcc with hc1 hc2
      apply hyne
      subst he1 hc1
      have hval : p.2 = sts := nodup_keys_value_eq d.charstates (charstates_keys_nodup d)
        p.1 p.2 sts (by simpa using hp) hc
      exact Prod.ext rfl (Prod.ext rfl hval)
    rw [if_neg hascne2]
    by_cases hob : gFun (alistFind (t', p.1) d.states) s' ≠ BinaryObs.GAP
    · rw [if_pos hob, if_neg hstne2]
      rfl
    · rw [if_neg hob]
      rfl

/-- Claim C2 (amended): when the derived binary column names do not
collide, the runnable binarize (`internal.py` `PhyloData.binarize`) gives
the per-state binary column `<character>_<state>` for each taxon exactly
the singleton observation determined by the taxon's observation set for
the source character: no entry at all when the set is absent or empty
(gap), `{"1"}` when the state is observed, and `{"0"}` otherwise — in
particular also `{"0"}` when the taxon's only observation is the missing
token, because the `MISSING` branch sits behind the always-false
`tuple(obs) == "?"` comparison.  `phylodata.py`'s module-level `binarize`
raises `AttributeError` before emitting anything for every such
dataset. -/
theorem C2_per_state_binary_value (d : OldPhyloData)
    (HtND : d.taxa.Nodup)
    (Hinj : ∀ x ∈ usedSrcs d, ∀ y ∈ usedSrcs d, colName x = colName y → x = y)
    (t c s : String) (sts : List String)
    (ht : t ∈ d.taxa) (hc : (c, sts) ∈ d.charstates) (hs : s ∈ sts) :
    alistFind (t, c ++ "_" ++ s) (binarize d).states =
      (if gFun (alistFind (t, c) d.states) s = BinaryObs.GAP then none
       else some [binaryOpsMap (gFun (alistFind (t, c) d.states) s)]) ∧
    binarizeModule d =
      .error "AttributeError: 'PhyloData' object has no attribute 'add_state'" :=
  ⟨per_state_column_lookup d HtND Hinj t c s sts ht hc hs,
   binarizeModule_error d t c s sts ht hc hs⟩

/-- Witness for C2: the amended theorem applies to the concrete dataset
`exBin` at taxon `A`, character `c`, state `x`, every hypothesis
discharged by evaluation. -/
theorem C2_witness :
    exBin.taxa.Nodup ∧
    (∀ x ∈ usedSrcs exBin, ∀ y ∈ usedSrcs exBin, colName x = colName y → x = y) ∧
    "A" ∈ exBin.taxa ∧ ("c", ["x", "y"]) ∈ exBin.charstates ∧
    "x" ∈ (["x", "y"] : List String) ∧
    (alistFind ("A", "c" ++ "_" ++ "x") (binarize exBin).states =
      (if gFun (alistFind ("A", "c") exBin.states) "x" = BinaryObs.GAP then none
       else some [binaryOpsMap (gFun (alistFind ("A", "c") exBin.states) "x")]) ∧
     binarizeModule exBin =
       .error "AttributeError: 'PhyloData' object has no attribute 'add_state'") :=
  ⟨by decide, by decide, by decide, by decide, by decide,
   C2_per_state_binary_value exBin (by decide) (by decide) "A" "c" "x" ["x", "y"]
     (by decide) (by decide) (by decide)⟩

/-- Claim C2 (counterexample): three failures of the claimed per-state
values.  In `exC2`, state `"x_y"` of character `"c"` and state `"y"` of
character `"c_x"` both feed the binary column `"c_x_y"`; taxon `A`
observed `"x_y"` for `"c"`, so the claim demands the value `"1"`, but the
column's observation set for `A` is `{"1", "0"}`.  In `exC2m`, taxon
`A`'s only observation for `"c"` is the missing token, so the claim
demands `"?"` on column `"c_x"`, but the runnable binarize emits `"0"`
(the `MISSING` branch is dead).  And `phylodata.py`'s module-level
`binarize` raises `AttributeError` instead of producing any column. -/
theorem C2_counterexample :
    "x_y" ∈ (alistFind "c" exC2.charstates).getD [] ∧
    alistFind ("A", "c") exC2.states = some ["x_y"] ∧
    alistFind ("A", "c_x_y") (binarize exC2).states = some ["1", "0"] ∧
    some ["1", "0"] ≠ some ["1"] ∧
    alistFind ("A", "c") exC2m.states = some ["?"] ∧
    alistFind ("A", "c_x") (binarize exC2m).states = some ["0"] ∧
    some ["0"] ≠ some ["?"] ∧
    binarizeModule exC2 =
      .error "AttributeError: 'PhyloData' object has no attribute 'add_state'" := by
  refine ⟨?_, rfl, rfl, ?_, rfl, rfl, ?_, rfl⟩ <;> decide

/-- Claim C3 (counterexample): in `exC3`, character `"c"`'s only
observation is the missing token, so its non-missing state set is empty
and the binarizer's per-state loop never runs — no
`"c_ASCERTAINMENT"` observation is emitted at all for taxon `"A"`,
although the claim demands exactly one; and on the well-behaved dataset
`exC2m`, `phylodata.py`'s module-level `binarize` raises `AttributeError`
instead of emitting any ascertainment observation. -/
theorem C3_counterexample :
    "A" ∈ exC3.taxa ∧ "c" ∈ exC3.characters ∧
    alistFind ("A", "c_ASCERTAINMENT") (binarize exC3).states = none ∧
    binarizeModule exC2m =
      .error "AttributeError: 'PhyloData' object has no attribute 'add_state'" := by
  refine ⟨?_, ?_, rfl, rfl⟩ <;> decide

/-- Helper: `Char.ofNat` on a scalar value below the surrogate range
evaluates to that value. -/
theorem char_toNat_ofNat (n : Nat) (h : n < 55296) : (Char.ofNat n).toNat = n := by
  rw [Char.ofNat, dif_pos (Or.inl h)]
  rfl

/-- Lowercase letters, as a predicate on code points. -/
def isLowerAZ (c : Char) : Prop :=
  97 ≤ c.toNat ∧ c.toNat ≤ 122

/-- The numeric value of a reversed bijective base-26 numeral
(least-significant digit first): `a..z` count as `1..26`. -/
def base26Val : List Char → Nat
  | [] => 0
  | c :: rest => (c.toNat - 96) + 26 * base26Val rest

/-- Helper: `succRev` preserves the all-lowercase digit invariant. -/
theorem succRev_valid : ∀ (l : List Char), (∀ c ∈ l, isLowerAZ c) →
    ∀ c ∈ succRev l, isLowerAZ c := by
  intro l
  induction l with
  | nil =>
      intro _ c hc
      simp only [succRev, List.mem_singleton] at hc
      subst hc
      exact ⟨by decide, by decide⟩
  | cons d rest ih =>
      intro hv c hc
      simp only [succRev] at hc
      by_cases hz : d = 'z'
      · rw [if_pos hz] at hc
        rcases List.mem_cons.mp hc with h1 | h1
        · subst h1; exact ⟨by decide, by decide⟩
        · exact ih (fun x hx => hv x (List.mem_cons_of_mem _ hx)) c h1
      · rw [if_neg hz] at hc
        rcases List.mem_cons.mp hc with h1 | h1
        · subst h1
          have hd := hv d (by simp)
          have hdz : d.toNat ≠ 122 := by
            intro he
            apply hz
            exact Char.ext (UInt32.ext he)
          have hlt : d.toNat + 1 < 55296 := by
            rcases hd with ⟨_, h2⟩
            omega
          refine ⟨?_, ?_⟩ <;> rw [char_toNat_ofNat _ hlt] <;> rcases hd with ⟨h1', h2'⟩ <;> omega
        · exact hv c (List.mem_cons_of_mem _ h1)

/-- Helper: `succRev` increments the numeric value by one on valid
numerals. -/
theorem base26Val_succRev : ∀ (l : List Char), (∀ c ∈ l, isLowerAZ c) →
    base26Val (succRev l) = base26Val l + 1 := by
  intro l
  induction l with
  | nil => intro _; rfl
  | cons d rest ih =>
      intro hv
      simp only [succRev]
      by_cases hz : d = 'z'
      · rw [if_pos hz]
        subst hz
        simp only [base26Val]
        rw [ih (fun x hx => hv x (List.mem_cons_of_mem _ hx))]
        have ha : ('a' : Char).toNat = 97 := by decide
        have hzz : ('z' : Char).toNat = 122 := by decide
        omega
      · rw [if_neg hz]
        simp only [base26Val]
        have hd := hv d (by simp)
        have hdz : d.toNat ≠ 122 := by
          intro he
          apply hz
          exact Char.ext (UInt32.ext he)
        have hlt : d.toNat + 1 < 55296 := by
          rcases hd with ⟨_, h2⟩
          omega
        rw [char_toNat_ofNat _ hlt]
        rcases hd with ⟨h1', h2'⟩
        omega

/-- Helper: the digits of every odometer numeral are lowercase letters. -/
theorem base26Rev_valid (n : Nat) : ∀ c ∈ base26Rev n, isLowerAZ c := by
  induction n with
  | zero =>
      intro c hc
      rcases List.mem_singleton.mp hc with rfl
      exact ⟨by decide, by decide⟩
  | succ n ih =>
      intro c hc
      exact succRev_valid (base26Rev n) ih c hc

/-- Helper: the `n`-th odometer numeral has value `n + 1`. -/
theorem base26Val_base26Rev (n : Nat) : base26Val (base26Rev n) = n + 1 := by
  induction n with
  | zero => rfl
  | succ n ih =>
      have : base26Rev (n + 1) = succRev (base26Rev n) := rfl
      rw [this, base26Val_succRev (base26Rev n) (base26Rev_valid n), ih]

/-- Helper: the label iterator of `unique_ids` yields pairwise distinct
suffixes. -/
theorem labelIter_injective (m n : Nat) (h : labelIter m = labelIter n) : m = n := by
  unfold labelIter at h
  have hdata : ('-' :: (base26Rev m).reverse) = ('-' :: (base26Rev n).reverse) := by
    have := congrArg String.data h
    simpa using this
  have hrev : (base26Rev m).reverse = (base26Rev n).reverse := by
    injection hdata
  have hbase : base26Rev m = base26Rev n := by
    have := congrArg List.reverse hrev
    simpa using this
  have := congrArg base26Val hbase
  rw [base26Val_base26Rev, base26Val_base26Rev] at this
  omega

/-- Helper: the initial accumulator bounds `List.foldl Nat.max`. -/
theorem le_foldl_max : ∀ (xs : List Nat) (a : Nat), a ≤ xs.foldl Nat.max a := by
  intro xs
  induction xs with
  | nil => intro a; exact Nat.le_refl a
  | cons y ys ih =>
      intro a
      exact Nat.le_trans (Nat.le_max_left a y) (ih (Nat.max a y))

/-- Helper: every member bounds `List.foldl Nat.max`. -/
theorem mem_le_foldl_max : ∀ (xs : List Nat) (a x : Nat), x ∈ xs → x ≤ xs.foldl Nat.max a := by
  intro xs
  induction xs with
  | nil => intro a x hx; cases hx
  | cons y ys ih =>
      intro a x hx
      rcases List.mem_cons.mp hx with h1 | h1
      · subst h1
        exact Nat.le_trans (Nat.le_max_right a x) (le_foldl_max ys (Nat.max a x))
      · exact ih (Nat.max a y) x h1

/-- Helper: `pyMaxNat` bounds every member of its argument. -/
theorem pyMaxNat_ge (l : List Nat) (m : Nat) (h : pyMaxNat l = .ok m) :
    ∀ x ∈ l, x ≤ m := by
  cases l with
  | nil => cases h
  | cons y ys =>
      intro x hx
      have hm : ys.foldl Nat.max y = m := by
        injection h
      rcases List.mem_cons.mp hx with h1 | h1
      · subst h1; rw [← hm]; exact le_foldl_max ys x
      · rw [← hm]; exact mem_le_foldl_max ys y x h1

/-- Helper: looking up `k` in the graph of `f` over `List.range n`. -/
theorem alistFind_range_map (f : Nat → String) :
    ∀ (n k : Nat), k < n →
    alistFind k ((List.range n).map (fun c => (c, f c))) = some (f k) := by
  intro n
  induction n with
  | zero => intro k hk; cases hk
  | succ n ih =>
      intro k hk
      rw [List.range_succ, List.map_append]
      unfold alistFind
      rw [List.find?_append]
      by_cases hkn : k < n
      · have hih := ih k hkn
        unfold alistFind at hih
        cases hfind : List.find? (fun p => p.1 = k) ((List.range n).map (fun c => (c, f c))) with
        | none => rw [hfind] at hih; cases hih
        | some p =>
            rw [hfind] at hih
            exact hih
      · have hkeq : k = n := by omega
        subst hkeq
        have hnone : List.find? (fun p => p.1 = k)
            ((List.range k).map (fun c => (c, f c))) = none := by
          rw [List.find?_eq_none]
          intro p hp
          rcases List.mem_map.mp hp with ⟨c, hc, rfl⟩
          have := List.mem_range.mp hc
          simp only [decide_eq_true_eq]
          omega
        rw [hnone]
        have hsing : List.find? (fun p => p.1 = k)
            ([k].map (fun c => (c, f c))) = some (k, f k) := by
          simp [List.find?]
        rw [hsing]
        rfl

/-- Helper: the element `unique_ids` produces at an in-range position. -/
theorem uniqueIdsResult_getD (labels : List String) (level : String) (M k : Nat)
    (hk : k < labels.length) :
    (uniqueIdsResult labels level M).getD k "" =
      (if (sluggedOf labels level).count ((sluggedOf labels level).getD k "") > 1 then
        (sluggedOf labels level).getD k "" ++
          (alistFind (((sluggedOf labels level).take k).count
            ((sluggedOf labels level).getD k "")) (suffixMapOf M)).getD ""
      else (sluggedOf labels level).getD k "") := by
  have hsl : (sluggedOf labels level).length = labels.length := List.length_map _ _
  have hlc : (locCountsOf labels level).length = labels.length := by
    simp [locCountsOf, hsl]
  have hzip : ((sluggedOf labels level).zip (locCountsOf labels level)).length =
      labels.length := by
    simp [List.length_zip, hsl, hlc]
  have hres : (uniqueIdsResult labels level M).length = labels.length := by
    simp [uniqueIdsResult, hzip]
  have hk1 : k < (uniqueIdsResult labels level M).length := by omega
  have hk2 : k < ((sluggedOf labels level).zip (locCountsOf labels level)).length := by omega
  have hk3 : k < (sluggedOf labels level).length := by omega
  have hk4 : k < (locCountsOf labels level).length := by omega
  have hk5 : k < (sluggedOf labels level).enum.length := by
    simpa [List.enum_length] using hk3
  rw [List.getD_eq_getElem _ _ hk1, List.getD_eq_getElem _ _ hk3]
  show (((sluggedOf labels level).zip (locCountsOf labels level)).map _)[k] = _
  rw [List.getElem_map, List.getElem_zip]
  have hlck : (locCountsOf labels level)[k] =
      ((sluggedOf labels level).take k).count (sluggedOf labels level)[k] := by
    show ((sluggedOf labels level).enum.map _)[k] = _
    rw [List.getElem_map, List.getElem_enum]
  rw [hlck]

/-- Helper: two occurrences of the same slugged value make its overall
count at least two. -/
theorem count_ge_two_of_two_positions (sl : List String) (i j : Nat)
    (hi : i < sl.length) (hj : j < sl.length) (hij : i < j) (hs : sl[i] = sl[j]) :
    1 < sl.count sl[i] := by
  have hdrop : sl.drop j = sl[j] :: sl.drop (j + 1) := List.drop_eq_getElem_cons hj
  have hcnt : (sl.take j ++ sl.drop j).count sl[i] =
      (sl.take j).count sl[i] + (sl.drop j).count sl[i] := List.count_append _ _ _
  rw [List.take_append_drop] at hcnt
  have hitake : i < (sl.take j).length := by
    rw [List.length_take]
    omega
  have htakemem : sl[i] ∈ sl.take j := by
    have hgt : (sl.take j)[i] = sl[i] := List.getElem_take sl
    rw [← hgt]
    exact List.getElem_mem _
  have h1 : 1 ≤ (sl.take j).count sl[i] := List.one_le_count_iff.mpr htakemem
  have h2 : 1 ≤ (sl.drop j).count sl[i] := by
    rw [hdrop, hs, List.count_cons_self]
    omega
  omega

/-- Helper: the previous-occurrence count of a repeated slugged value
strictly increases between two of its positions. -/
theorem locCount_strict_mono (sl : List String) (i j : Nat)
    (hi : i < sl.length) (hj : j < sl.length) (hij : i < j) :
    (sl.take i).count sl[i] < (sl.take j).count sl[i] := by
  have hjtlen : (sl.take j).length = j := by
    rw [List.length_take]
    omega
  have hitj : i < (sl.take j).length := by omega
  have htt : (sl.take j).take i = sl.take i := by
    rw [List.take_take]
    congr 1
    omega
  have hdrop : (sl.take j).drop i = (sl.take j)[i] :: (sl.take j).drop (i + 1) :=
    List.drop_eq_getElem_cons hitj
  have hgt : (sl.take j)[i] = sl[i] := List.getElem_take sl
  have hcnt : ((sl.take j).take i ++ (sl.take j).drop i).count sl[i] =
      ((sl.take j).take i).count sl[i] + ((sl.take j).drop i).count sl[i] :=
    List.count_append _ _ _
  rw [List.take_append_drop, htt] at hcnt
  have h2 : 1 ≤ ((sl.take j).drop i).count sl[i] := by
    rw [hdrop, hgt, List.count_cons_self]
    omega
  omega

/-- Helper: appending distinct suffixes to the same base yields distinct
strings. -/
theorem string_append_left_cancel (v a b : String) (h : v ++ a = v ++ b) : a = b := by
  apply String.ext
  have hd := congrArg String.data h
  rw [String.data_append, String.data_append] at hd
  exact List.append_cancel_left hd

/-- Helper: the positional count stored by `unique_ids` at an in-range
position. -/
theorem locCountsOf_getElem (labels : List String) (level : String) (k : Nat)
    (hk : k < (locCountsOf labels level).length)
    (hk2 : k < (sluggedOf labels level).length) :
    (locCountsOf labels level)[k] =
      ((sluggedOf labels level).take k).count (sluggedOf labels level)[k] := by
  show ((sluggedOf labels level).enum.map _)[k] = _
  rw [List.getElem_map, List.getElem_enum]

/-- Claim C7 (amended): `unique_ids` keeps length and order and gives any
two occurrences of the same slugged value pairwise distinct outputs (their
previous-occurrence counts differ, so their base-26 suffixes differ); full
pairwise distinctness of the whole output can still fail when an
unduplicated label's slug coincides with a suffixed duplicate (see the
counterexample). -/
theorem C7_same_slug_occurrences_distinct (labels : List String) (level : String)
    (hne : labels ≠ []) :
    ∃ res, uniqueIds labels level = .ok res ∧ res.length = labels.length ∧
      ∀ i j, i < labels.length → j < labels.length → i ≠ j →
        (sluggedOf labels level).getD i "" = (sluggedOf labels level).getD j "" →
        res.getD i "" ≠ res.getD j "" := by
  have hsl : (sluggedOf labels level).length = labels.length := List.length_map _ _
  have hlc : (locCountsOf labels level).length = labels.length := by
    simp [locCountsOf, hsl]
  obtain ⟨M, hmax⟩ : ∃ M, pyMaxNat (locCountsOf labels level) = .ok M := by
    cases hl : locCountsOf labels level with
    | nil =>
        exfalso
        apply hne
        have := congrArg List.length hl
        rw [hlc] at this
        exact List.length_eq_zero.mp this
    | cons y ys => exact ⟨ys.foldl Nat.max y, rfl⟩
  refine ⟨uniqueIdsResult labels level M, ?_, ?_, ?_⟩
  · show (pyMaxNat (locCountsOf labels level) >>=
      fun maxLC => pure (uniqueIdsResult labels level maxLC)) = _
    rw [hmax]
    rfl
  · simp [uniqueIdsResult, List.length_zip, hsl, hlc]
  · -- the two positions carry the same slugged value but different
    -- previous-occurrence counts, hence different suffixes
    have key : ∀ i j, i < j → j < labels.length →
        (sluggedOf labels level).getD i "" = (sluggedOf labels level).getD j "" →
        (uniqueIdsResult labels level M).getD i "" ≠
          (uniqueIdsResult labels level M).getD j "" := by
      intro i j hij hj hs
      have hi : i < labels.length := by omega
      have hi2 : i < (sluggedOf labels level).length := by omega
      have hj2 : j < (sluggedOf labels level).length := by omega
      have hi3 : i < (locCountsOf labels level).length := by omega
      have hj3 : j < (locCountsOf labels level).length := by omega
      rw [List.getD_eq_getElem _ _ hi2, List.getD_eq_getElem _ _ hj2] at hs
      have hcnt2 : 1 < (sluggedOf labels level).count (sluggedOf labels level)[i] :=
        count_ge_two_of_two_positions (sluggedOf labels level) i j hi2 hj2 hij hs
      have hmono : ((sluggedOf labels level).take i).count (sluggedOf labels level)[i] <
          ((sluggedOf labels level).take j).count (sluggedOf labels level)[i] :=
        locCount_strict_mono (sluggedOf labels level) i j hi2 hj2 hij
      have hci : ((sluggedOf labels level).take i).count (sluggedOf labels level)[i] ≤ M := by
        apply pyMaxNat_ge (locCountsOf labels level) M hmax
        rw [← locCountsOf_getElem labels level i hi3 hi2]
        exact List.getElem_mem _
      have hcj : ((sluggedOf labels level).take j).count (sluggedOf labels level)[j] ≤ M := by
        apply pyMaxNat_ge (locCountsOf labels level) M hmax
        rw [← locCountsOf_getElem labels level j hj3 hj2]
        exact List.getElem_mem _
      rw [uniqueIdsResult_getD labels level M i hi, uniqueIdsResult_getD labels level M j hj]
      rw [List.getD_eq_getElem _ _ hi2, List.getD_eq_getElem _ _ hj2, ← hs]
      rw [if_pos hcnt2, if_pos hcnt2]
      simp only [suffixMapOf]
      rw [alistFind_range_map labelIter (M + 1)
        (((sluggedOf labels level).take i).count (sluggedOf labels level)[i]) (by omega)]
      rw [show ((sluggedOf labels level).take j).count (sluggedOf labels level)[i] =
          ((sluggedOf labels level).take j).count (sluggedOf labels level)[j] from by rw [hs]] at hmono ⊢
      rw [alistFind_range_map labelIter (M + 1)
        (((sluggedOf labels level).take j).count (sluggedOf labels level)[j]) (by omega)]
      intro heq
      have hsuf := string_append_left_cancel _ _ _ heq
      have := labelIter_injective _ _ hsuf
      omega
    intro i j hi hj hij hs
    rcases Nat.lt_or_ge i j with hlt | hge
    · exact key i j hlt hj hs
    · have hlt2 : j < i := by omega
      exact (key j i hlt2 hi hs.symm).symm

/-- Claim C7 (witness for the amended theorem): the amended theorem at the
duplicate list `["a", "a"]` with level `"none"`. -/
theorem C7_witness :
    ∃ res, uniqueIds ["a", "a"] "none" = .ok res ∧ res.length = 2 ∧
      ∀ i j, i < 2 → j < 2 → i ≠ j →
        (sluggedOf ["a", "a"] "none").getD i "" = (sluggedOf ["a", "a"] "none").getD j "" →
        res.getD i "" ≠ res.getD j "" := by
  have h := C7_same_slug_occurrences_distinct ["a", "a"] "none" (by decide)
  simpa using h

/-- Claim C7 (counterexample): with the valid slug level `"none"`, the
suffixed second occurrence of `"a"` collides with the untouched unique
label `"a-a"`, so the output is not pairwise distinct. -/
theorem C7_counterexample :
    uniqueIds ["a-a", "a", "a"] "none" = .ok ["a-a", "a-a", "a-b"] ∧
    ¬ (["a-a", "a-a", "a-b"] : List String).Nodup := by
  refine ⟨rfl, ?_⟩
  decide

/-- Claim C10 (counterexample): on the source `"x"`, whose first
non-whitespace content is not `#NEXUS`, `parse_nexus` does not fail: the
automaton simply never leaves its initial state and the empty parse
record is returned. -/
theorem C10_counterexample :
    pyStrip "x" ≠ "#NEXUS" ∧ parseNexus "x" = .ok {} := by
  refine ⟨?_, rfl⟩
  decide

/-- Claim C4 (code bug, evaluation at the failing input): converting even
the simplest tabular source crashes inside `read_data_tabular` — the
reader hands `PhyloData.extend` a two-element key that the method unpacks
into three — so the tabular → NEXUS → tabular round trip never gets past
its first step. -/
theorem C4_round_trip_unreachable :
    readDataTabular "Taxon,Character,State\nA,c,x" ',' argsExplicit =
      .error "ValueError: not enough values to unpack (expected 3, got 2)" := by
  rfl

/-- Helper: the empty string is a right identity for append. -/
theorem strAppend_empty (s : String) : s ++ "" = s := by
  cases s with
  | mk data => exact congrArg String.mk (List.append_nil data)

/-- Helper: the empty string is a left identity for append. -/
theorem strEmpty_append (s : String) : "" ++ s = s := by
  cases s with
  | mk data => rfl

/-- Helper: string append is associative. -/
theorem strAppend_assoc (a b c : String) : a ++ b ++ c = a ++ (b ++ c) := by
  cases a with
  | mk la =>
      cases b with
      | mk lb =>
          cases c with
          | mk lc => exact congrArg String.mk (List.append_assoc la lb lc)

/-- Helper: appending to a nonempty string stays nonempty. -/
theorem strAppend_ne_empty (a b : String) (h : a ≠ "") : a ++ b ≠ "" := by
  cases a with
  | mk la =>
      cases b with
      | mk lb =>
          intro he
          apply h
          have hdata : la ++ lb = [] := congrArg String.data he
          have hla : la = [] := (List.append_eq_nil.mp hdata).1
          rw [hla]

/-- Helper: lexicographic comparison is total. -/
theorem lexLe_total : ∀ (a b : List Char), lexLe a b = true ∨ lexLe b a = true := by
  intro a
  induction a with
  | nil => intro b; left; rfl
  | cons x xs ih =>
      intro b
      cases b with
      | nil => right; rfl
      | cons y ys =>
          rcases lt_trichotomy x y with hlt | heq | hgt
          · left
            show (if x < y then true else if x = y then lexLe xs ys else false) = true
            rw [if_pos hlt]
          · subst heq
            rcases ih ys with h | h
            · left
              show (if x < x then true else if x = x then lexLe xs ys else false) = true
              rw [if_neg (lt_irrefl x), if_pos rfl]
              exact h
            · right
              show (if x < x then true else if x = x then lexLe ys xs else false) = true
              rw [if_neg (lt_irrefl x), if_pos rfl]
              exact h
          · right
            show (if y < x then true else if y = x then lexLe ys xs else false) = true
            rw [if_pos hgt]

/-- Helper: lexicographic comparison is transitive. -/
theorem lexLe_trans : ∀ (a b c : List Char),
    lexLe a b = true → lexLe b c = true → lexLe a c = true := by
  intro a
  induction a with
  | nil => intro b c _ _; rfl
  | cons x xs ih =>
      intro b c hab hbc
      cases b with
      | nil => exact absurd hab (by simp [lexLe])
      | cons y ys =>
          cases c with
          | nil => exact absurd hbc (by simp [lexLe])
          | cons z zs =>
              have hab2 : (if x < y then true else if x = y then lexLe xs ys else false)
                  = true := hab
              have hbc2 : (if y < z then true else if y = z then lexLe ys zs else false)
                  = true := hbc
              show (if x < z then true else if x = z then lexLe xs zs else false) = true
              by_cases h1 : x < y
              · by_cases h2 : y < z
                · rw [if_pos (lt_trans h1 h2)]
                · by_cases h3 : y = z
                  · subst h3
                    rw [if_pos h1]
                  · rw [if_neg h2, if_neg h3] at hbc2
                    exact absurd hbc2 (by simp)
              · by_cases h4 : x = y
                · subst h4
                  rw [if_neg h1, if_pos rfl] at hab2
                  by_cases h2 : x < z
                  · rw [if_pos h2]
                  · by_cases h3 : x = z
                    · subst h3
                      rw [if_neg h2, if_pos rfl] at hbc2
                      rw [if_neg h2, if_pos rfl]
                      exact ih ys zs hab2 hbc2
                    · rw [if_neg h2, if_neg h3] at hbc2
                      exact absurd hbc2 (by simp)
                · rw [if_neg h1, if_neg h4] at hab2
                  exact absurd hab2 (by simp)

/-- Helper: lexicographic comparison is antisymmetric. -/
theorem lexLe_antisymm : ∀ (a b : List Char),
    lexLe a b = true → lexLe b a = true → a = b := by
  intro a
  induction a with
  | nil =>
      intro b _ hba
      cases b with
      | nil => rfl
      | cons y ys => exact absurd hba (by simp [lexLe])
  | cons x xs ih =>
      intro b hab hba
      cases b with
      | nil => exact absurd hab (by simp [lexLe])
      | cons y ys =>
          have hab2 : (if x < y then true else if x = y then lexLe xs ys else false)
              = true := hab
          have hba2 : (if y < x then true else if y = x then lexLe ys xs else false)
              = true := hba
          by_cases h1 : x < y
          · rw [if_neg (lt_asymm h1), if_neg (ne_of_gt h1)] at hba2
            exact absurd hba2 (by simp)
          · by_cases h2 : x = y
            · subst h2
              rw [if_neg h1, if_pos rfl] at hab2 hba2
              rw [ih ys hab2 hba2]
            · rw [if_neg h1, if_neg h2] at hab2
              exact absurd hab2 (by simp)

/-- Helper: the string order is total. -/
theorem strLe_total (a b : String) : strLe a b = true ∨ strLe b a = true :=
  lexLe_total a.data b.data

/-- Helper: the string order is transitive. -/
theorem strLe_trans (a b c : String) (h1 : strLe a b = true) (h2 : strLe b c = true) :
    strLe a c = true :=
  lexLe_trans a.data b.data c.data h1 h2

/-- Helper: the string order is antisymmetric. -/
theorem strLe_antisymm (a b : String) (h1 : strLe a b = true) (h2 : strLe b a = true) :
    a = b := by
  cases a with
  | mk la =>
      cases b with
      | mk lb => exact congrArg String.mk (lexLe_antisymm la lb h1 h2)

/-- Helper: inserting into a list permutes to consing. -/
theorem insertLe_perm (le : α → α → Bool) (x : α) :
    ∀ (l : List α), List.Perm (insertLe le x l) (x :: l) := by
  intro l
  induction l with
  | nil => exact List.Perm.refl _
  | cons y rest ih =>
      show List.Perm (if le x y then x :: y :: rest else y :: insertLe le x rest) _
      by_cases h : le x y = true
      · rw [if_pos h]
      · rw [if_neg h]
        exact (ih.cons y).trans (List.Perm.swap x y rest)

/-- Helper: insertion sort permutes its input. -/
theorem pySorted_perm (le : α → α → Bool) (l : List α) :
    List.Perm (pySorted le l) l := by
  induction l with
  | nil => exact List.Perm.refl _
  | cons a rest ih =>
      show List.Perm (insertLe le a (pySorted le rest)) _
      exact (insertLe_perm le a (pySorted le rest)).trans (ih.cons a)

/-- Helper: inserting into a pairwise-ordered list keeps it ordered when
the order is total and transitive. -/
theorem insertLe_pairwise (le : α → α → Bool)
    (htot : ∀ a b, le a b = true ∨ le b a = true)
    (htrans : ∀ a b c, le a b = true → le b c = true → le a c = true)
    (x : α) : ∀ (l : List α), l.Pairwise (fun a b => le a b = true) →
    (insertLe le x l).Pairwise (fun a b => le a b = true) := by
  intro l
  induction l with
  | nil =>
      intro _
      exact List.pairwise_singleton _ x
  | cons y rest ih =>
      intro hp
      rw [List.pairwise_cons] at hp
      show ((if le x y then x :: y :: rest else y :: insertLe le x rest)).Pairwise _
      by_cases h : le x y = true
      · rw [if_pos h]
        refine List.Pairwise.cons ?_ (List.Pairwise.cons hp.1 hp.2)
        intro z hz
        rcases List.mem_cons.mp hz with rfl | hz2
        · exact h
        · exact htrans x y z h (hp.1 z hz2)
      · rw [if_neg h]
        have hyx : le y x = true := (htot x y).resolve_left h
        refine List.Pairwise.cons ?_ (ih hp.2)
        intro z hz
        have hz2 := (insertLe_perm le x rest).mem_iff.mp hz
        rcases List.mem_cons.mp hz2 with rfl | hz3
        · exact hyx
        · exact hp.1 z hz3

/-- Helper: insertion sort produces a pairwise-ordered list when the order
is total and transitive. -/
theorem pySorted_pairwise (le : α → α → Bool)
    (htot : ∀ a b, le a b = true ∨ le b a = true)
    (htrans : ∀ a b c, le a b = true → le b c = true → le a c = true)
    (l : List α) : (pySorted le l).Pairwise (fun a b => le a b = true) := by
  induction l with
  | nil => simp [pySorted]
  | cons a rest ih =>
      show (insertLe le a (pySorted le rest)).Pairwise _
      exact insertLe_pairwise le htot htrans a (pySorted le rest) ih

/-- Helper: binding a successful `Except` computation applies the
continuation. -/
theorem except_bind_ok (a : α) (f : α → Except ε β) :
    Except.bind (Except.ok a) f = f a := rfl

/-- Helper: the monadic bind of a successful `Except` computation applies
the continuation. -/
theorem except_bindOp_ok (a : α) (f : α → Except ε β) :
    ((Except.ok a : Except ε α) >>= f) = f a := rfl

/-- Helper: a member of a list has an index, and the index is in range. -/
theorem idxOf?_of_mem (v : String) :
    ∀ (l : List String), v ∈ l → ∃ i, idxOf? v l = some i ∧ i < l.length := by
  intro l
  induction l with
  | nil => intro h; cases h
  | cons x rest ih =>
      intro h
      by_cases hx : x = v
      · exact ⟨0, by simp [idxOf?, hx], by simp⟩
      · have hv : v ∈ rest := by
          rcases List.mem_cons.mp h with rfl | h2
          · exact absurd rfl hx
          · exact h2
        rcases ih hv with ⟨i, hi, hlen⟩
        refine ⟨i + 1, ?_, ?_⟩
        · simp [idxOf?, hx, hi]
        · simpa using Nat.succ_lt_succ hlen

/-- Helper: an in-range index has an element. -/
theorem get?_of_lt : ∀ (l : List α) (i : Nat), i < l.length → ∃ a, l.get? i = some a := by
  intro l
  induction l with
  | nil => intro i h; exact absurd h (by simp)
  | cons a rest ih =>
      intro i h
      cases i with
      | zero => exact ⟨a, rfl⟩
      | succ j => exact ih j (Nat.lt_of_succ_lt_succ h)

/-- Helper: an element found by index is a member. -/
theorem get?_mem : ∀ (l : List α) (i : Nat) (a : α), l.get? i = some a → a ∈ l := by
  intro l
  induction l with
  | nil => intro i a h; cases h
  | cons x rest ih =>
      intro i a h
      cases i with
      | zero =>
          injection h with h2
          exact h2 ▸ List.mem_cons_self x rest
      | succ j => exact List.mem_cons_of_mem x (ih j a h)

/-- Helper: `take` does not change in-range indexing. -/
theorem take_get? : ∀ (l : List α) (n i : Nat), i < n → (l.take n).get? i = l.get? i := by
  intro l
  induction l with
  | nil => intro n i _; rw [List.take_nil]
  | cons a rest ih =>
      intro n i h
      cases n with
      | zero => exact absurd h (Nat.not_lt_zero i)
      | succ m =>
          cases i with
          | zero => rfl
          | succ j =>
              show (rest.take m).get? j = rest.get? j
              exact ih m j (Nat.lt_of_succ_lt_succ h)

/-- Helper: a `mapM` over `Except` with pointwise-successful steps is the
successful `map`. -/
theorem mapM_ok_of_forall (f : α → Except ε β) (g : α → β) :
    ∀ (l : List α), (∀ v ∈ l, f v = .ok (g v)) → l.mapM f = .ok (l.map g) := by
  intro l
  induction l with
  | nil => intro _; rfl
  | cons a rest ih =>
      intro h
      rw [List.mapM_cons, h a (by simp), ih (fun v hv => h v (by simp [hv]))]
      rfl

/-- Helper: a `foldlM` over `Except` with pointwise-successful steps is
the successful `foldl`. -/
theorem foldlM_eq_ok_foldl (body : β → α → Except ε β) (g : β → α → β) :
    ∀ (l : List α), (∀ acc, ∀ x ∈ l, body acc x = .ok (g acc x)) →
    ∀ acc, l.foldlM body acc = .ok (l.foldl g acc) := by
  intro l
  induction l with
  | nil => intro _ acc; rfl
  | cons a rest ih =>
      intro h acc
      rw [List.foldlM_cons, h acc a (by simp), except_bindOp_ok]
      exact ih (fun acc2 x hx => h acc2 x (by simp [hx])) (g acc a)

/-- Helper: when every observed value occurs in the state tuple and the
tuple fits the symbol range, `matrixCell` succeeds with the amended cell
rendering. -/
theorem matrixCell_ok (card : Nat) (states o : List String) (hne : o ≠ [])
    (hmem : ∀ v ∈ o, v ∈ states) (hlen : states.length ≤ card)
    (hlen36 : states.length ≤ 36) :
    matrixCell (digitsUpper.take card) states o = .ok (amendedMatrixCell states o) := by
  have hdU : digitsUpper.length = 36 := rfl
  have hpt : ∀ v ∈ o,
      (fun v => match idxOf? v states with
        | none => (Except.error "ValueError: state not in states tuple" : Except String String)
        | some i => match (digitsUpper.take card).get? i with
          | none => Except.error "IndexError: symbols index out of range"
          | some s => Except.ok s) v = Except.ok (symFor states v) := by
    intro v hv
    rcases idxOf?_of_mem v states (hmem v hv) with ⟨i, hi, hilt⟩
    show (match idxOf? v states with
      | none => (Except.error "ValueError: state not in states tuple" : Except String String)
      | some i => match (digitsUpper.take card).get? i with
        | none => Except.error "IndexError: symbols index out of range"
        | some s => Except.ok s) = Except.ok (symFor states v)
    have hicard : i < card := lt_of_lt_of_le hilt hlen
    have hi36 : i < digitsUpper.length := by
      rw [hdU]
      exact lt_of_lt_of_le hilt hlen36
    rcases get?_of_lt digitsUpper i hi36 with ⟨s, hs⟩
    simp only [hi, take_get? digitsUpper card i hicard, hs, symFor]
  unfold matrixCell
  rw [mapM_ok_of_forall _ (symFor states) o hpt, except_bindOp_ok]
  unfold amendedMatrixCell
  rw [if_neg hne]
  cases hm : o.map (symFor states) with
  | nil => rfl
  | cons r rs =>
      cases rs with
      | nil => rfl
      | cons r2 rs2 => rfl

/-- Helper: a successful association-list lookup is a member. -/
theorem alistFind_mem (k : α) [DecidableEq α] (v : β) :
    ∀ (l : List (α × β)), alistFind k l = some v → (k, v) ∈ l := by
  intro l
  induction l with
  | nil => intro h; simp [alistFind, List.find?] at h
  | cons p rest ih =>
      intro h
      by_cases hk : p.1 = k
      · have hfind : alistFind k (p :: rest) = some p.2 := by
          unfold alistFind
          simp [List.find?, hk]
        rw [hfind] at h
        injection h with h2
        have hp : (k, v) = p := by
          rw [← hk, ← h2]
        rw [hp]
        exact List.mem_cons_self p rest
      · have hfind : alistFind k (p :: rest) = alistFind k rest := by
          unfold alistFind
          simp [List.find?, hk]
        rw [hfind] at h
        exact List.mem_cons_of_mem p (ih h)

/-- Helper: an empty observation set renders the empty cell. -/
theorem cellOf_of_empty (d : NPhyloData) (pc : String × String) (t : String)
    (h : d.getObs (t, pc.1, pc.2) = []) : cellOf d pc t = "" := by
  unfold cellOf
  rw [h]
  rfl

/-- Helper: the symbol of an in-range state is never the empty string. -/
theorem symFor_ne_empty (states : List String) (v : String) (hv : v ∈ states)
    (h36 : states.length ≤ 36) : symFor states v ≠ "" := by
  rcases idxOf?_of_mem v states hv with ⟨i, hi, hilt⟩
  have hdU : digitsUpper.length = 36 := rfl
  have hi36 : i < digitsUpper.length := by
    rw [hdU]
    exact lt_of_lt_of_le hilt h36
  rcases get?_of_lt digitsUpper i hi36 with ⟨s, hs⟩
  have hsmem := get?_mem digitsUpper i s hs
  have hsne : s ≠ "" := by
    have hall : ∀ x ∈ digitsUpper, x ≠ "" := by decide
    exact hall s hsmem
  intro he
  have hval : symFor states v = s := by
    simp only [symFor, hi, hs]
  rw [hval] at he
  exact hsne he

/-- Helper: a nonempty in-range observation set renders a nonempty cell. -/
theorem cellOf_ne_empty (d : NPhyloData) (pc : String × String) (t : String)
    (hmem : ∀ v ∈ d.getObs (t, pc.1, pc.2), v ∈ statesOf d pc)
    (h36 : (statesOf d pc).length ≤ 36)
    (hne : d.getObs (t, pc.1, pc.2) ≠ []) : cellOf d pc t ≠ "" := by
  unfold cellOf amendedMatrixCell
  rw [if_neg hne]
  cases ho : d.getObs (t, pc.1, pc.2) with
  | nil => exact absurd ho hne
  | cons v rest =>
      cases rest with
      | nil =>
          show symFor (statesOf d pc) v ≠ ""
          refine symFor_ne_empty (statesOf d pc) v ?_ h36
          refine hmem v ?_
          rw [ho]
          exact List.mem_cons_self v []
      | cons v2 rest2 =>
          exact strAppend_ne_empty _ ")" (strAppend_ne_empty "(" _ (by decide))

/-- Helper: under the well-formedness hypotheses, the matrix inner-loop
body succeeds and performs the pure row update. -/
theorem matrixInnerBody_ok (d : NPhyloData) (card : Nat) (pc : String × String)
    (t : String)
    (hmem : ∀ v ∈ d.getObs (t, pc.1, pc.2), v ∈ statesOf d pc)
    (hlen : (statesOf d pc).length ≤ card) (hlen36 : (statesOf d pc).length ≤ 36)
    (rows : List (String × String)) :
    matrixInnerBody d (digitsUpper.take card) pc rows t = .ok (rowStep d pc rows t) := by
  unfold matrixInnerBody rowStep
  by_cases ho : d.getObs (t, pc.1, pc.2) = []
  · have hnn : ¬ (d.getObs (t, pc.1, pc.2) ≠ []) := fun h => h ho
    rw [if_neg hnn, if_neg hnn]
  · have hne : d.getObs (t, pc.1, pc.2) ≠ [] := ho
    rw [if_pos hne, if_pos hne,
      matrixCell_ok card (statesOf d pc) (d.getObs (t, pc.1, pc.2)) hne hmem hlen hlen36,
      except_bind_ok]
    rfl

/-- Helper: lookup after folding one column's row updates over a
duplicate-free taxa list. -/
theorem rowStep_fold_find (d : NPhyloData) (pc : String × String) (t : String) :
    ∀ (ts : List String), ts.Nodup → ∀ (rows : List (String × String)),
    alistFind t (ts.foldl (rowStep d pc) rows) =
      (if t ∈ ts ∧ d.getObs (t, pc.1, pc.2) ≠ [] then
        some (((alistFind t rows).getD "") ++ cellOf d pc t)
      else alistFind t rows) := by
  intro ts
  induction ts with
  | nil =>
      intro _ rows
      rw [List.foldl_nil, if_neg (fun h => List.not_mem_nil t h.1)]
  | cons t0 rest ih =>
      intro hnd rows
      rw [List.nodup_cons] at hnd
      rw [List.foldl_cons]
      by_cases hteq : t = t0
      · subst hteq
        rw [ih hnd.2 (rowStep d pc rows t)]
        rw [if_neg (fun h => hnd.1 h.1)]
        by_cases ho : d.getObs (t, pc.1, pc.2) = []
        · have hnn : ¬ (d.getObs (t, pc.1, pc.2) ≠ []) := fun h => h ho
          have hstep : rowStep d pc rows t = rows := by
            unfold rowStep
            rw [if_neg hnn]
          rw [hstep, if_neg (fun h => hnn h.2)]
        · have hne2 : d.getObs (t, pc.1, pc.2) ≠ [] := ho
          have hstep : rowStep d pc rows t =
              alistUpsert t "" (fun row => row ++ cellOf d pc t) rows := by
            unfold rowStep
            rw [if_pos hne2]
          rw [hstep, alistFind_upsert_self t "" (fun row => row ++ cellOf d pc t) rows]
          rw [if_pos ⟨List.mem_cons_self t rest, hne2⟩]
      · have hfind : alistFind t (rowStep d pc rows t0) = alistFind t rows := by
          by_cases ho : d.getObs (t0, pc.1, pc.2) = []
          · have hnn : ¬ (d.getObs (t0, pc.1, pc.2) ≠ []) := fun h => h ho
            have hstep : rowStep d pc rows t0 = rows := by
              unfold rowStep
              rw [if_neg hnn]
            rw [hstep]
          · have hne2 : d.getObs (t0, pc.1, pc.2) ≠ [] := ho
            have hstep : rowStep d pc rows t0 =
                alistUpsert t0 "" (fun row => row ++ cellOf d pc t0) rows := by
              unfold rowStep
              rw [if_pos hne2]
            rw [hstep]
            exact alistFind_upsert_ne t0 t "" (fun row => row ++ cellOf d pc t0) hteq rows
        rw [ih hnd.2 (rowStep d pc rows t0), hfind]
        by_cases hmem : t ∈ rest ∧ d.getObs (t, pc.1, pc.2) ≠ []
        · rw [if_pos hmem, if_pos ⟨List.mem_cons_of_mem t0 hmem.1, hmem.2⟩]
        · rw [if_neg hmem,
            if_neg (fun h => hmem ⟨(List.mem_cons.mp h.1).resolve_left hteq, h.2⟩)]

/-- Helper: one row update preserves duplicate-freedom of the row keys. -/
theorem rowStep_keys (d : NPhyloData) (pc : String × String)
    (rows : List (String × String)) (t : String)
    (h : (rows.map Prod.fst).Nodup) : ((rowStep d pc rows t).map Prod.fst).Nodup := by
  unfold rowStep
  by_cases ho : d.getObs (t, pc.1, pc.2) ≠ []
  · rw [if_pos ho]
    exact alistUpsert_keys_nodup t "" (fun row => row ++ cellOf d pc t) rows h
  · rw [if_neg ho]
    exact h

/-- Helper: the pure double loop preserves duplicate-freedom of the row
keys. -/
theorem rowsPure_keys (d : NPhyloData) (cs : List (String × String))
    (rows0 : List (String × String)) (h : (rows0.map Prod.fst).Nodup) :
    ((rowsPure d cs rows0).map Prod.fst).Nodup := by
  unfold rowsPure
  refine foldl_preserves
    (fun rows => ((rows : List (String × String)).map Prod.fst).Nodup) cs rows0 h ?_
  intro rows pc _ hp
  exact foldl_preserves
    (fun rows => ((rows : List (String × String)).map Prod.fst).Nodup)
    d.sortedTaxa rows hp (fun b a _ hb => rowStep_keys d pc b a hb)

/-- Helper: lookup in the pure double loop, for a duplicate-free taxa
list: a taxon's row is the concatenation of its cells, with no entry at
all when every cell is empty. -/
theorem rowsPure_find (d : NPhyloData) (t : String) (hnd : d.sortedTaxa.Nodup) :
    ∀ (cs : List (String × String)),
    (t ∈ d.sortedTaxa → ∀ pc ∈ cs, d.getObs (t, pc.1, pc.2) ≠ [] → cellOf d pc t ≠ "") →
    ∀ (rows : List (String × String)),
    alistFind t (rowsPure d cs rows) =
      (if t ∈ d.sortedTaxa then
        (match alistFind t rows with
         | some r => some (r ++ cellsConcat d t cs)
         | none =>
             if cellsConcat d t cs = "" then none else some (cellsConcat d t cs))
      else alistFind t rows) := by
  intro cs
  induction cs with
  | nil =>
      intro _ rows
      show alistFind t rows = _
      by_cases hmem : t ∈ d.sortedTaxa
      · rw [if_pos hmem]
        cases hfind : alistFind t rows with
        | none =>
            show none = (if cellsConcat d t [] = "" then none else some (cellsConcat d t []))
            rw [if_pos (show cellsConcat d t [] = "" from rfl)]
        | some r =>
            show some r = some (r ++ cellsConcat d t [])
            rw [show cellsConcat d t [] = "" from rfl, strAppend_empty]
      · rw [if_neg hmem]
  | cons pc cs2 ih =>
      intro Hcell rows
      show alistFind t (rowsPure d cs2 (d.sortedTaxa.foldl (rowStep d pc) rows)) = _
      rw [ih (fun hm q hq => Hcell hm q (List.mem_cons_of_mem pc hq))
        (d.sortedTaxa.foldl (rowStep d pc) rows)]
      rw [rowStep_fold_find d pc t d.sortedTaxa hnd rows]
      by_cases hmem : t ∈ d.sortedTaxa
      · rw [if_pos hmem, if_pos hmem]
        by_cases ho : d.getObs (t, pc.1, pc.2) = []
        · have hnn : ¬ (t ∈ d.sortedTaxa ∧ d.getObs (t, pc.1, pc.2) ≠ []) :=
            fun h => h.2 ho
          rw [if_neg hnn]
          have hcc : cellsConcat d t (pc :: cs2) = cellsConcat d t cs2 := by
            show cellOf d pc t ++ cellsConcat d t cs2 = cellsConcat d t cs2
            rw [cellOf_of_empty d pc t ho, strEmpty_append]
          rw [hcc]
        · have hne2 : d.getObs (t, pc.1, pc.2) ≠ [] := ho
          rw [if_pos ⟨hmem, hne2⟩]
          have hcellne : cellOf d pc t ≠ "" :=
            Hcell hmem pc (List.mem_cons_self pc cs2) hne2
          cases hfind : alistFind t rows with
          | some r =>
              show some ((r ++ cellOf d pc t) ++ cellsConcat d t cs2) =
                some (r ++ cellsConcat d t (pc :: cs2))
              rw [show cellsConcat d t (pc :: cs2)
                = cellOf d pc t ++ cellsConcat d t cs2 from rfl, strAppend_assoc]
          | none =>
              have hne3 : cellsConcat d t (pc :: cs2) ≠ "" := by
                show cellOf d pc t ++ cellsConcat d t cs2 ≠ ""
                exact strAppend_ne_empty _ _ hcellne
              show some (("" ++ cellOf d pc t) ++ cellsConcat d t cs2) =
                (if cellsConcat d t (pc :: cs2) = "" then none
                 else some (cellsConcat d t (pc :: cs2)))
              rw [if_neg hne3]
              show some (("" ++ cellOf d pc t) ++ cellsConcat d t cs2) =
                some (cellOf d pc t ++ cellsConcat d t cs2)
              rw [strEmpty_append]
      · rw [if_neg hmem, if_neg hmem, if_neg (fun h => hmem h.1)]

/-- Helper: under the well-formedness hypotheses, the matrix projection
succeeds and equals the sorted pure double loop. -/
theorem matrix_eq_rowsPure (d : NPhyloData) (card : Nat)
    (hcard : d.cardinality = .ok card)
    (Hmem : ∀ pc ∈ d.characters, ∀ t ∈ d.sortedTaxa,
      ∀ v ∈ d.getObs (t, pc.1, pc.2), v ∈ statesOf d pc)
    (Hlen : ∀ pc ∈ d.characters,
      (statesOf d pc).length ≤ card ∧ (statesOf d pc).length ≤ 36) :
    d.matrix = .ok (pySorted (fun a b => strLe a.1 b.1) (rowsPure d d.characters [])) := by
  have hsym : d.symbols = .ok (digitsUpper.take card) := by
    unfold NPhyloData.symbols
    rw [hcard]
    rfl
  have houter : d.characters.foldlM
      (fun (rows : List (String × String)) pc =>
        d.sortedTaxa.foldlM (matrixInnerBody d (digitsUpper.take card) pc) rows) []
      = .ok (rowsPure d d.characters []) := by
    unfold rowsPure
    refine foldlM_eq_ok_foldl _ (fun rows pc => d.sortedTaxa.foldl (rowStep d pc) rows)
      d.characters ?_ []
    intro acc pc hpc
    refine foldlM_eq_ok_foldl _ (rowStep d pc) d.sortedTaxa ?_ acc
    intro acc2 x hx
    exact matrixInnerBody_ok d card pc x (Hmem pc hpc x hx) (Hlen pc hpc).1
      (Hlen pc hpc).2 acc2
  unfold NPhyloData.matrix
  rw [hsym]
  simp only [except_bindOp_ok]
  rw [houter]
  rfl

/-- Helper: membership in the amended matrix. -/
theorem amendedMatrix_mem (d : NPhyloData) (t r : String) :
    (t, r) ∈ amendedMatrix d ↔
      (t ∈ d.sortedTaxa ∧ amendedMatrixRow d t ≠ "" ∧ r = amendedMatrixRow d t) := by
  unfold amendedMatrix
  rw [List.mem_filterMap]
  constructor
  · rintro ⟨a, ha, hfa⟩
    by_cases h : amendedMatrixRow d a = ""
    · rw [if_pos h] at hfa
      cases hfa
    · rw [if_neg h] at hfa
      injection hfa with h2
      injection h2 with h3 h4
      subst h3
      exact ⟨ha, h, h4.symm⟩
  · rintro ⟨hmem, hne, rfl⟩
    exact ⟨t, hmem, by rw [if_neg hne]⟩

/-- Helper: the amended matrix's taxa are a sublist of the sorted taxa. -/
theorem amendedMatrix_keys_sublist (d : NPhyloData) :
    ((amendedMatrix d).map Prod.fst).Sublist d.sortedTaxa := by
  unfold amendedMatrix
  suffices h : ∀ (ts : List String),
      ((ts.filterMap (fun t => if amendedMatrixRow d t = "" then none
        else some (t, amendedMatrixRow d t))).map Prod.fst).Sublist ts from
    h d.sortedTaxa
  intro ts
  induction ts with
  | nil => simp
  | cons a rest ih =>
      rw [List.filterMap_cons]
      by_cases h : amendedMatrixRow d a = ""
      · rw [if_pos h]
        exact ih.cons a
      · rw [if_neg h]
        exact ih.cons₂ a

/-- Claim C1 (amended): the matrix projection iterates characters in
sorted charset/character order and, within each character, taxa in sorted
order, appending one cell per NONEMPTY observation set: a taxon with no
observation for a character contributes nothing for that character (no
`"-"`), an observation set of exactly `{"?"}` is rendered through the
sorted state tuple like any other state (no `"?"` special case), a
singleton set is rendered as its mapped symbol, and a polymorphic set as
a parenthesized comma-joined list; the result maps each taxon with a
nonempty row to that row, sorted by taxon, and omits all-empty rows. -/
theorem C1_matrix_projection (d : NPhyloData) (card : Nat)
    (HtND : d.taxa.Nodup)
    (hcard : d.cardinality = .ok card)
    (Hmem : ∀ pc ∈ d.characters, ∀ t ∈ d.sortedTaxa,
      ∀ v ∈ d.getObs (t, pc.1, pc.2), v ∈ statesOf d pc)
    (Hlen : ∀ pc ∈ d.characters,
      (statesOf d pc).length ≤ card ∧ (statesOf d pc).length ≤ 36) :
    d.matrix = .ok (amendedMatrix d) := by
  rw [matrix_eq_rowsPure d card hcard Hmem Hlen]
  have hndk : d.sortedTaxa.Nodup := ((pySorted_perm strLe d.taxa).nodup_iff).mpr HtND
  have hkeys : ((rowsPure d d.characters []).map Prod.fst).Nodup :=
    rowsPure_keys d d.characters [] (by simp)
  have hfind : ∀ t r, alistFind t (rowsPure d d.characters []) = some r ↔
      (t ∈ d.sortedTaxa ∧ amendedMatrixRow d t ≠ "" ∧ r = amendedMatrixRow d t) := by
    intro t r
    rw [rowsPure_find d t hndk d.characters
      (fun hm pc hpc hne =>
        cellOf_ne_empty d pc t (Hmem pc hpc t hm) (Hlen pc hpc).2 hne) []]
    by_cases hmem : t ∈ d.sortedTaxa
    · rw [if_pos hmem]
      show (if cellsConcat d t d.characters = "" then none
          else some (cellsConcat d t d.characters)) = some r ↔ _
      by_cases hcc : cellsConcat d t d.characters = ""
      · rw [if_pos hcc]
        constructor
        · intro h
          cases h
        · rintro ⟨_, hne, _⟩
          exact (hne hcc).elim
      · rw [if_neg hcc]
        constructor
        · intro h
          injection h with h2
          exact ⟨hmem, fun he => hcc he, h2.symm⟩
        · rintro ⟨_, _, rfl⟩
          rfl
    · rw [if_neg hmem]
      show (none : Option String) = some r ↔ _
      constructor
      · intro h
        cases h
      · rintro ⟨hm, _, _⟩
        exact absurd hm hmem
  have hLmem : ∀ x : String × String,
      x ∈ rowsPure d d.characters [] ↔ x ∈ amendedMatrix d := by
    intro x
    cases x with
    | mk t r =>
        rw [amendedMatrix_mem d t r, ← hfind t r]
        constructor
        · intro hm
          exact alistFind_of_mem_nodup _ hkeys t r hm
        · intro hf
          exact alistFind_mem t r _ hf
  have hLnodup : (rowsPure d d.characters []).Nodup := hkeys.of_map
  have hAnodupKeys : ((amendedMatrix d).map Prod.fst).Nodup :=
    hndk.sublist (amendedMatrix_keys_sublist d)
  have hAnodup : (amendedMatrix d).Nodup := hAnodupKeys.of_map
  have hperm : List.Perm (rowsPure d d.characters []) (amendedMatrix d) :=
    (List.perm_ext_iff_of_nodup hLnodup hAnodup).mpr hLmem
  have hsortL : (pySorted (fun a b => strLe a.1 b.1) (rowsPure d d.characters [])).Pairwise
      (fun a b => strLe a.1 b.1 = true) :=
    pySorted_pairwise (fun a b => strLe a.1 b.1) (fun a b => strLe_total a.1 b.1)
      (fun a b c h1 h2 => strLe_trans a.1 b.1 c.1 h1 h2) (rowsPure d d.characters [])
  have hpermSorted : List.Perm
      (pySorted (fun a b => strLe a.1 b.1) (rowsPure d d.characters []))
      (rowsPure d d.characters []) := pySorted_perm _ _
  have hkeysSorted : ((pySorted (fun a b => strLe a.1 b.1)
      (rowsPure d d.characters [])).map Prod.fst).Nodup :=
    (hpermSorted.map Prod.fst).nodup_iff.mpr hkeys
  have hsortAkeys : d.sortedTaxa.Pairwise (fun a b => strLe a b = true) :=
    pySorted_pairwise strLe strLe_total strLe_trans d.taxa
  have hsortA : (amendedMatrix d).Pairwise (fun a b => strLe a.1 b.1 = true) :=
    List.pairwise_map.mp (hsortAkeys.sublist (amendedMatrix_keys_sublist d))
  have hstrictL : (pySorted (fun a b => strLe a.1 b.1)
      (rowsPure d d.characters [])).Pairwise
      (fun a b => strLe a.1 b.1 = true ∧ a.1 ≠ b.1) :=
    hsortL.and (List.pairwise_map.mp hkeysSorted)
  have hstrictA : (amendedMatrix d).Pairwise
      (fun a b => strLe a.1 b.1 = true ∧ a.1 ≠ b.1) :=
    hsortA.and (List.pairwise_map.mp hAnodupKeys)
  have hfinal : pySorted (fun a b => strLe a.1 b.1) (rowsPure d d.characters [])
      = amendedMatrix d := by
    haveI : IsAntisymm (String × String)
        (fun a b => strLe a.1 b.1 = true ∧ a.1 ≠ b.1) :=
      ⟨fun a b hab hba => absurd (strLe_antisymm a.1 b.1 hab.1 hba.1) hab.2⟩
    exact List.eq_of_perm_of_sorted (hpermSorted.trans hperm) hstrictL hstrictA
  rw [hfinal]

/-- Witness for C1: the amended theorem applies to the concrete dataset
`exC1`, every hypothesis discharged by evaluation. -/
theorem C1_witness :
    exC1.taxa.Nodup ∧ exC1.cardinality = .ok 2 ∧
    (∀ pc ∈ exC1.characters, ∀ t ∈ exC1.sortedTaxa,
      ∀ v ∈ exC1.getObs (t, pc.1, pc.2), v ∈ statesOf exC1 pc) ∧
    (∀ pc ∈ exC1.characters,
      (statesOf exC1 pc).length ≤ 2 ∧ (statesOf exC1 pc).length ≤ 36) ∧
    exC1.matrix = .ok (amendedMatrix exC1) :=
  ⟨by decide, by decide, by decide, by decide,
   C1_matrix_projection exC1 2 (by decide) (by decide) (by decide) (by decide)⟩

end Panphylo
